import Mathlib

/-!
Shallow embedding of the sliding-puzzle solver (`src/puzzle.rs`, `src/main.rs`).

Machine integers are modelled as `Nat`: `u8` casts appear as `% 256` where the
source performs `as u8`; `usize`/`u32` arithmetic in the source never
overflows on the values involved, so plain `Nat` is faithful there.

Rust panics (out-of-bounds indexing, the explicit panic in `empty_position`)
are modelled explicitly: fallible operations return `PanicOr`, and the solve
drivers return `RunOut`, whose `panic` constructor marks a Rust panic.
`RunOut.fuelOut` is an artifact of the fuel-based embedding of the two
`while` loops and corresponds to no program behaviour; theorems quantify over
sufficient fuel.

`Instant`-based timing (`time_spent`) is real time and is not embedded; the
other four fields of `SolveResult` are modelled exactly.
-/

namespace FifteenPuzzle

/-- `const MAX_DEPTH: usize = 20;` -/
def maxDepthConst : Nat := 20

/-- `enum Direction { Up, Down, Left, Right, None }` -/
inductive Direction : Type where
  | up
  | down
  | left
  | right
  | none
deriving DecidableEq, Repr

/-- `Direction::opposite` -/
def Direction.opposite : Direction → Direction
  | Direction.up => Direction.down
  | Direction.down => Direction.up
  | Direction.left => Direction.right
  | Direction.right => Direction.left
  | Direction.none => Direction.none

/-- `enum Metric { Hamming, Manhattan }` -/
inductive Metric : Type where
  | hamming
  | manhattan
deriving DecidableEq, Repr

/-- `enum Strategy { Bfs([Direction; 4]), Dfs([Direction; 4]), AStar(Metric) }`
(the 4-element arrays are modelled as lists). -/
inductive Strategy : Type where
  | bfs (ord : List Direction)
  | dfs (ord : List Direction)
  | astar (m : Metric)
deriving DecidableEq, Repr

/-- `struct Puzzle`: `grid: Vec<u8>` (entries < 256), `path: [Direction; 20]`
(a list whose length-20 invariant is carried as a hypothesis where needed),
`width`, `height`, `metric: u32`. -/
structure Puzzle : Type where
  grid : List Nat
  path : List Direction
  width : Nat
  height : Nat
  metric : Nat
deriving DecidableEq, Repr

/-- `struct SolveResult` without the wall-clock `time_spent` field. -/
structure SolveResult : Type where
  path : Option (List Direction)
  visitedStates : Nat
  processedStates : Nat
  maxDepth : Nat
deriving DecidableEq, Repr

/-- Result of a fallible computation: `panic` models a Rust panic. -/
inductive PanicOr (α : Type) : Type where
  | panic
  | ok (val : α)
deriving DecidableEq, Repr

/-- Outcome of a solve driver: a Rust panic, fuel exhaustion of the embedded
loop (an artifact, never a program behaviour), or a returned `SolveResult`. -/
inductive RunOut : Type where
  | panic
  | fuelOut
  | done (r : SolveResult)
deriving DecidableEq, Repr

/-- `impl PartialEq for Puzzle`: equality compares grids only. -/
def puzzleEqb (a b : Puzzle) : Bool := a.grid == b.grid

/-- `impl Ord for Puzzle`: `self.metric.cmp(&other.metric).reverse()`
(`Ordering.swap` is Lean's reversal of an `Ordering`). -/
def puzzleCmp (a b : Puzzle) : Ordering := (compare a.metric b.metric).swap

/-- `Puzzle::is_solved`. The `(… + 1) as u8` casts become `% 256`. -/
def isSolved (p : Puzzle) : Bool :=
  if p.grid.getD (p.grid.length - 1) 0 ≠ 0 then false
  else
    ((List.range (p.height - 1)).all fun y =>
      (List.range p.width).all fun x =>
        p.grid.getD (y * p.width + x) 0 == (y * p.width + x + 1) % 256) &&
    ((List.range (p.width - 1)).all fun x =>
      p.grid.getD (p.width * (p.height - 1) + x) 0 ==
        ((p.height - 1) * p.width + x + 1) % 256)

/-- `Puzzle::empty_position`. The Rust nested loop scans the row-major flat
indices `0, 1, 2, …` in order and returns the coordinates `(y, x)` of the
first zero cell (under the structural invariant `grid.length = width*height`
the scanned indices are exactly the positions of `grid`); it panics when no
zero exists, modelled by `Option.none` here and turned into `PanicOr.panic`
by the callers. -/
def emptyPosition? (p : Puzzle) : Option (Nat × Nat) :=
  match p.grid.findIdx? (fun v => v == 0) with
  | Option.none => Option.none
  | Option.some i => Option.some (i / p.width, i % p.width)

/-- The write of a direction into the first `Direction::None` slot of the
fixed `path` array performed by `Puzzle::move_empty`; when no sentinel slot
is left the direction is dropped and the array is unchanged. -/
def pushPath : List Direction → Direction → List Direction
  | [], _ => []
  | Direction.none :: rest, d => d :: rest
  | e :: rest, d => e :: pushPath rest d

/-- Grid update of `Puzzle::move_empty`: the new grid takes the target cell's
value at the blank position and zero at the target position; the source
indexes the vector, so out-of-range positions are a panic. -/
def moveSwap (p : Puzzle) (y x ny nx : Nat) (d : Direction) :
    PanicOr (Option Puzzle) :=
  let src := y * p.width + x
  let tgt := ny * p.width + nx
  if src < p.grid.length ∧ tgt < p.grid.length then
    PanicOr.ok (Option.some
      { p with
        grid := (p.grid.set src (p.grid.getD tgt 0)).set tgt 0
        path := pushPath p.path d })
  else PanicOr.panic

/-- `Puzzle::move_empty`. -/
def moveEmpty (p : Puzzle) (d : Direction) : PanicOr (Option Puzzle) :=
  match emptyPosition? p with
  | Option.none => PanicOr.panic
  | Option.some (y, x) =>
    match d with
    | Direction.up =>
      if y = 0 then PanicOr.ok Option.none else moveSwap p y x (y - 1) x d
    | Direction.down =>
      if y = p.height - 1 then PanicOr.ok Option.none
      else moveSwap p y x (y + 1) x d
    | Direction.left =>
      if x = 0 then PanicOr.ok Option.none else moveSwap p y x y (x - 1) d
    | Direction.right =>
      if x = p.width - 1 then PanicOr.ok Option.none
      else moveSwap p y x y (x + 1) d
    | Direction.none => PanicOr.ok Option.none

/-- `Puzzle::correct_place` (note the source returns `(x, y)` here). -/
def correctPlace (p : Puzzle) (value : Nat) : Nat × Nat :=
  if value = 0 then (p.width - 1, p.height - 1)
  else ((value - 1) % p.width, (value - 1) / p.width)

/-- `Puzzle::manhattan_metric`. -/
def manhattanMetric (p : Puzzle) : Nat :=
  (p.grid.enum.map fun iv =>
    if iv.2 = 0 then 0
    else
      let c := correctPlace p iv.2
      let x := iv.1 % p.width
      let y := iv.1 / p.width
      (Int.natAbs ((x : Int) - (c.1 : Int))) +
        (Int.natAbs ((y : Int) - (c.2 : Int)))).sum

/-- `Puzzle::hamming_metric` (`(i + 1) as u8` becomes `% 256`). -/
def hammingMetric (p : Puzzle) : Nat :=
  (p.grid.enum.map fun iv =>
    if iv.2 = 0 then 0
    else if iv.2 ≠ (iv.1 + 1) % 256 then 1 else 0).sum

/-- `Puzzle::path_depth`: number of non-`None` entries of the path array. -/
def pathDepth (p : Puzzle) : Nat :=
  p.path.countP (fun d => d != Direction.none)

/-- `Puzzle::path_to_vec`: the non-`None` entries of the path array. -/
def pathToVec (p : Puzzle) : List Direction :=
  p.path.filter (fun d => d != Direction.none)

/-- The `last_move` computed inside `Puzzle::get_neighbour_states`:
`path[path_depth() - 1]` when the depth is positive, `None` otherwise. -/
def lastMove (p : Puzzle) : Direction :=
  if 0 < pathDepth p then p.path.getD (pathDepth p - 1) Direction.none
  else Direction.none

/-- The A* rank assignment in `Puzzle::get_neighbour_states`: with a metric
supplied, a successor's `metric` field is overwritten with
`path_depth() + heuristic`. -/
def withMetric (m : Option Metric) (q : Puzzle) : Puzzle :=
  match m with
  | Option.none => q
  | Option.some Metric.hamming => { q with metric := pathDepth q + hammingMetric q }
  | Option.some Metric.manhattan => { q with metric := pathDepth q + manhattanMetric q }

/-- The direction loop of `Puzzle::get_neighbour_states`: skip a direction
whose opposite equals `last_move`, otherwise apply `move_empty` and collect
the successor (rank-tagged when a metric is supplied). -/
def neighboursGo (p : Puzzle) (m : Option Metric) :
    List Direction → PanicOr (List Puzzle)
  | [] => PanicOr.ok []
  | d :: rest =>
    if d.opposite == lastMove p then neighboursGo p m rest
    else
      match moveEmpty p d with
      | PanicOr.panic => PanicOr.panic
      | PanicOr.ok Option.none => neighboursGo p m rest
      | PanicOr.ok (Option.some q) =>
        match neighboursGo p m rest with
        | PanicOr.panic => PanicOr.panic
        | PanicOr.ok l => PanicOr.ok (withMetric m q :: l)

/-- `Puzzle::get_neighbour_states`. -/
def getNeighbourStates (p : Puzzle) (ord : List Direction) (m : Option Metric) :
    PanicOr (List Puzzle) :=
  neighboursGo p m ord

/-- `visited.get(&neighbour)`: the `HashSet` is keyed by grid content
(`PartialEq`/`Hash` of `Puzzle` use only `grid`), modelled as a list looked
up by grid equality. -/
def visitedGet (v : List Puzzle) (n : Puzzle) : Option Puzzle :=
  v.find? (fun s => s.grid == n.grid)

/-- `visited.replace(neighbour)`: swap out the entry with the same grid
(inserting at the end if absent, as `HashSet::replace` inserts). -/
def visitedReplace : List Puzzle → Puzzle → List Puzzle
  | [], n => [n]
  | s :: rest, n =>
    if s.grid == n.grid then n :: rest else s :: visitedReplace rest n

/-- One registry upsert, shared verbatim by the BFS/DFS loop and the A* loop:
if a state with the same grid is stored and the candidate's path is strictly
shorter, replace it and re-admit the candidate (`true`); if stored with an
equal-or-shorter path, discard (`false`); if absent, insert and admit. -/
def upsertStep (v : List Puzzle) (n : Puzzle) : List Puzzle × Bool :=
  match visitedGet v n with
  | Option.some previous =>
    if pathDepth n < pathDepth previous then (visitedReplace v n, true)
    else (v, false)
  | Option.none => (n :: v, true)

/-- The neighbour loop shared by both solve drivers: run each neighbour
through the registry upsert and enqueue the admitted ones at the back. -/
def processNeighbours (q v : List Puzzle) (ns : List Puzzle) :
    List Puzzle × List Puzzle :=
  ns.foldl
    (fun acc n =>
      let r := upsertStep acc.2 n
      (if r.2 then acc.1 ++ [n] else acc.1, r.1))
    (q, v)

/-- Pop of the `VecDeque`: back for DFS, front for BFS. -/
def popQueue (isDfs : Bool) (q : List Puzzle) : Option (Puzzle × List Puzzle) :=
  if isDfs then
    match q.getLast? with
    | Option.some last => Option.some (last, q.dropLast)
    | Option.none => Option.none
  else
    match q with
    | c :: rest => Option.some (c, rest)
    | [] => Option.none

/-- The `while` loop of `Puzzle::solve_basic`, with explicit fuel. -/
def solveBasicLoop (ord : List Direction) (isDfs : Bool) :
    Nat → List Puzzle → List Puzzle → Nat → Nat → RunOut
  | 0, _, _, _, _ => RunOut.fuelOut
  | Nat.succ fuel, queue, visited, maxDepth, processed =>
    match popQueue isDfs queue with
    | Option.none =>
      RunOut.done
        { path := Option.none, visitedStates := visited.length,
          processedStates := processed, maxDepth := maxDepth }
    | Option.some (current, rest) =>
      let processed := processed + 1
      let depth := pathDepth current
      let maxDepth := if maxDepth < depth then depth else maxDepth
      if isSolved current then
        RunOut.done
          { path := Option.some (pathToVec current),
            visitedStates := visited.length,
            processedStates := processed, maxDepth := maxDepth }
      else if isDfs && (current.path.getD (maxDepthConst - 1) Direction.none
          != Direction.none) then
        solveBasicLoop ord isDfs fuel rest visited maxDepth processed
      else
        match getNeighbourStates current ord Option.none with
        | PanicOr.panic => RunOut.panic
        | PanicOr.ok ns =>
          let qv := processNeighbours rest visited ns
          solveBasicLoop ord isDfs fuel qv.1 qv.2 maxDepth processed

/-- `Puzzle::solve_basic` (the DFS variant reverses the caller's order). -/
def solveBasic (p : Puzzle) (ord : List Direction) (isDfs : Bool)
    (fuel : Nat) : RunOut :=
  let ord2 := if isDfs then ord.reverse else ord
  solveBasicLoop ord2 isDfs fuel [p] [p] 0 0

/-- Pop of the `BinaryHeap`: with `Ord` comparing `metric` reversed, `pop`
returns an element maximal under `cmp`, i.e. of minimal `metric`; the Rust
tie order among equal keys is unspecified, fixed here as the earliest
minimal-metric element. -/
def heapPop : List Puzzle → Option (Puzzle × List Puzzle)
  | [] => Option.none
  | s :: rest =>
    match heapPop rest with
    | Option.none => Option.some (s, rest)
    | Option.some (m, rest2) =>
      if s.metric ≤ m.metric then Option.some (s, rest)
      else Option.some (m, s :: rest2)

/-- The fixed order array built inside `Puzzle::solve_priority`. -/
def priorityOrder : List Direction :=
  [Direction.left, Direction.up, Direction.right, Direction.down]

/-- The `while` loop of `Puzzle::solve_priority`, with explicit fuel (the
inline path collection of the source equals `path_to_vec`). -/
def solvePriorityLoop (m : Metric) :
    Nat → List Puzzle → List Puzzle → Nat → Nat → RunOut
  | 0, _, _, _, _ => RunOut.fuelOut
  | Nat.succ fuel, queue, visited, maxDepth, processed =>
    match heapPop queue with
    | Option.none =>
      RunOut.done
        { path := Option.none, visitedStates := visited.length,
          processedStates := processed, maxDepth := maxDepth }
    | Option.some (current, rest) =>
      let processed := processed + 1
      let depth := pathDepth current
      let maxDepth := if maxDepth < depth then depth else maxDepth
      if isSolved current then
        RunOut.done
          { path := Option.some (pathToVec current),
            visitedStates := visited.length,
            processedStates := processed, maxDepth := maxDepth }
      else
        match getNeighbourStates current priorityOrder (Option.some m) with
        | PanicOr.panic => RunOut.panic
        | PanicOr.ok ns =>
          let qv := processNeighbours rest visited ns
          solvePriorityLoop m fuel qv.1 qv.2 maxDepth processed

/-- `Puzzle::solve_priority`. -/
def solvePriority (p : Puzzle) (m : Metric) (fuel : Nat) : RunOut :=
  solvePriorityLoop m fuel [p] [p] 0 0

/-- `Puzzle::solve`: dispatch on the strategy. -/
def solve (p : Puzzle) (strategy : Strategy) (fuel : Nat) : RunOut :=
  match strategy with
  | Strategy.bfs ord => solveBasic p ord false fuel
  | Strategy.dfs ord => solveBasic p ord true fuel
  | Strategy.astar m => solvePriority p m fuel

/-- Outcome of `Puzzle::from_file` on given file contents.  The `NotFound`
variant of `FileReadError` arises only when `fs::read_to_string` itself
fails, before any content is examined, and is outside this model. -/
inductive LoadOut : Type where
  | errEmpty
  | errCorrupt
  | panic
  | ok (p : Puzzle)
deriving DecidableEq, Repr

/-- Splitting a character list at whitespace runs, dropping empty pieces
(the `cur` accumulator holds the current token reversed). -/
def wsTokensGo : List Char → List Char → List (List Char)
  | cur, [] => if cur.isEmpty then [] else [cur.reverse]
  | cur, c :: rest =>
    if c.isWhitespace then
      if cur.isEmpty then wsTokensGo [] rest
      else cur.reverse :: wsTokensGo [] rest
    else wsTokensGo (c :: cur) rest

/-- `split_whitespace` of a line: maximal whitespace-free runs, in order. -/
def tokensOf (s : String) : List String :=
  (wsTokensGo [] s.data).map (fun cs => String.mk cs)

/-- Digit-string accumulator for `parseNat?`. -/
def digitsToNat : List Char → Nat → Option Nat
  | [], acc => Option.some acc
  | c :: rest, acc =>
    if c.isDigit then digitsToNat rest (acc * 10 + (c.toNat - 48))
    else Option.none

/-- Rust's `str::parse` for an unsigned integer: digits only, failing on an
empty string or any non-digit (the Rust parser additionally accepts a
leading `+` and fails on overflow; neither difference matters to the claims
about this loader). -/
def parseNat? (s : String) : Option Nat :=
  match s.data with
  | [] => Option.none
  | cs => digitsToNat cs 0

/-- Intermediate outcome of the grid-filling loop of `Puzzle::from_file`. -/
inductive FillOut : Type where
  | corrupt
  | panic
  | ok (g : List Nat)
deriving DecidableEq, Repr

/-- One grid line of `Puzzle::from_file`: parse each token (`parse::<u32>`,
modelled by `parseNat?`; a failure is the corrupt-input error), then
write `value as u8` at flat index `y*width + x` — an index at or past the
end of the grid vector is an out-of-bounds panic. -/
def fillLine (w y : Nat) : List Nat → Nat → List String → FillOut
  | grid, _, [] => FillOut.ok grid
  | grid, x, t :: ts =>
    match parseNat? t with
    | Option.none => FillOut.corrupt
    | Option.some v =>
      let idx := y * w + x
      if idx < grid.length then fillLine w y (grid.set idx (v % 256)) (x + 1) ts
      else FillOut.panic

/-- The grid-filling loop of `Puzzle::from_file` over the lines after the
first, threading the partially filled grid. -/
def fillLines (w : Nat) : List Nat → Nat → List String → FillOut
  | grid, _, [] => FillOut.ok grid
  | grid, y, line :: ls =>
    match fillLine w y grid 0 (tokensOf line) with
    | FillOut.ok g2 => fillLines w g2 (y + 1) ls
    | out => out

/-- `Puzzle::from_file`, acting on the file contents presented as the list of
its lines (Rust's `contents.lines()`): an empty file is `IsEmpty`; a missing
or unparsable dimension token is `IsCorrupt`; then a `width*height` grid of
zeros is filled from the remaining lines. -/
def fromFile (lines : List String) : LoadOut :=
  match lines with
  | [] => LoadOut.errEmpty
  | first :: rest =>
    let dims := tokensOf first
    match dims.head? with
    | Option.none => LoadOut.errCorrupt
    | Option.some t1 =>
      match parseNat? t1 with
      | Option.none => LoadOut.errCorrupt
      | Option.some h =>
        match (dims.drop 1).head? with
        | Option.none => LoadOut.errCorrupt
        | Option.some t2 =>
          match parseNat? t2 with
          | Option.none => LoadOut.errCorrupt
          | Option.some w =>
            match fillLines w (List.replicate (w * h) 0) 0 rest with
            | FillOut.ok grid =>
              LoadOut.ok
                { grid := grid,
                  path := List.replicate maxDepthConst Direction.none,
                  width := w, height := h, metric := 0 }
            | FillOut.corrupt => LoadOut.errCorrupt
            | FillOut.panic => LoadOut.panic

/-- An initial puzzle state as built by `Puzzle::from_file` and
`Puzzle::_new`: all path slots hold the sentinel and the rank is zero. -/
def mkInitial (g : List Nat) (w h : Nat) : Puzzle :=
  { grid := g, path := List.replicate maxDepthConst Direction.none,
    width := w, height := h, metric := 0 }

/-- The canonical goal grid (row-major ascending, blank last), with the
`as u8` truncation of `is_solved` made explicit. -/
def goalGrid (w h : Nat) : List Nat :=
  (List.range (w * h)).map fun i => if i = w * h - 1 then 0 else (i + 1) % 256

/-- Grid-level action of one blank move: the grid part of
`Puzzle::move_empty`, independent of path bookkeeping.  `Option.none` covers
both an off-grid move and the (never reached under the structural
invariants) panic cases. -/
def applyMove (w h : Nat) (g : List Nat) (d : Direction) : Option (List Nat) :=
  match moveEmpty (mkInitial g w h) d with
  | PanicOr.ok (Option.some q) => Option.some q.grid
  | _ => Option.none

/-- Iterated grid-level moves. -/
def applyMoves (w h : Nat) : List Nat → List Direction → Option (List Nat)
  | g, [] => Option.some g
  | g, d :: ds =>
    match applyMove w h g d with
    | Option.some g2 => applyMoves w h g2 ds
    | Option.none => Option.none

/-- `reach w h g l g2`: the move sequence `l` transforms grid `g` into `g2`. -/
def reach (w h : Nat) (g : List Nat) (l : List Direction) (g2 : List Nat) : Prop :=
  applyMoves w h g l = Option.some g2

/-- `k` is the minimal number of moves transforming `g0` into `x`. -/
def MinReach (w h : Nat) (g0 x : List Nat) (k : Nat) : Prop :=
  (∃ l, reach w h g0 l x ∧ l.length = k) ∧
    ∀ l, reach w h g0 l x → k ≤ l.length

/-- Mapping a function over the state list of a `PanicOr` result (used to
compare neighbour generation with and without a heuristic). -/
def pmapStates (f : Puzzle → Puzzle) : PanicOr (List Puzzle) → PanicOr (List Puzzle)
  | PanicOr.panic => PanicOr.panic
  | PanicOr.ok l => PanicOr.ok (l.map f)

/-- The heuristic value selected by a `Metric`. -/
def heuristicOf (m : Metric) (p : Puzzle) : Nat :=
  match m with
  | Metric.hamming => hammingMetric p
  | Metric.manhattan => manhattanMetric p

/-- A path array as produced by the program: the recorded moves form a
prefix, followed only by `None` sentinel slots. -/
def IsNormal (l : List Direction) : Prop :=
  ∃ a b, l = a ++ b ∧ (∀ d ∈ a, d ≠ Direction.none) ∧
    (∀ d ∈ b, d = Direction.none)

/-- Whether the blank at flat index `bi` sits on the boundary that blocks a
move in direction `d` (the `return None` tests of `Puzzle::move_empty`). -/
def blockedAt (w h bi : Nat) : Direction → Prop
  | Direction.up => bi / w = 0
  | Direction.down => bi / w = h - 1
  | Direction.left => bi % w = 0
  | Direction.right => bi % w = w - 1
  | Direction.none => True

/-- Flat index of the cell the blank at `bi` moves into for direction `d`. -/
def tgtIdx (w bi : Nat) : Direction → Nat
  | Direction.up => bi - w
  | Direction.down => bi + w
  | Direction.left => bi - 1
  | Direction.right => bi + 1
  | Direction.none => bi

/-- Lookup of the registry entry stored for a given grid. -/
def storedAt (v : List Puzzle) (g : List Nat) : Option Puzzle :=
  v.find? (fun s => s.grid == g)

/-- Folding a whole sequence of candidates through the registry upsert. -/
def upsertAll (v : List Puzzle) (cs : List Puzzle) : List Puzzle :=
  cs.foldl (fun acc n => (upsertStep acc n).1) v

/-- The registry never stores two states with the same grid. -/
def DistinctGrids (v : List Puzzle) : Prop :=
  (v.map Puzzle.grid).Nodup

/-! ### Concrete states used in counterexamples and witnesses -/

/-- A 2×2 state whose last recorded move is `Down`. -/
def c2parent : Puzzle :=
  { grid := [1, 2, 3, 0],
    path := Direction.down :: List.replicate 19 Direction.none,
    width := 2, height := 2, metric := 0 }

/-- The successor of `c2parent` by `Up` — the inverse of its last move. -/
def c2upChild : Puzzle :=
  { grid := [1, 0, 3, 2],
    path := Direction.down :: Direction.up :: List.replicate 18 Direction.none,
    width := 2, height := 2, metric := 0 }

/-- The only successor the A* generator actually produces from `c2parent`. -/
def c2leftChild : Puzzle :=
  { grid := [1, 2, 0, 3],
    path := Direction.down :: Direction.left :: List.replicate 18 Direction.none,
    width := 2, height := 2, metric := 3 }

/-- A 2×2 state whose 20-slot history is completely full. -/
def c6parent : Puzzle :=
  { grid := [1, 2, 0, 3], path := List.replicate 20 Direction.up,
    width := 2, height := 2, metric := 0 }

/-- `Up`-successor of `c6parent`: its history cannot grow past 20 slots. -/
def c6upChild : Puzzle :=
  { grid := [0, 2, 1, 3], path := List.replicate 20 Direction.up,
    width := 2, height := 2, metric := 22 }

/-- `Right`-successor of `c6parent`. -/
def c6rightChild : Puzzle :=
  { grid := [1, 2, 3, 0], path := List.replicate 20 Direction.up,
    width := 2, height := 2, metric := 20 }

/-- A 2×2 state with one blank and a full 20-slot history. -/
def c4parent : Puzzle :=
  { grid := [1, 2, 3, 0], path := List.replicate 20 Direction.up,
    width := 2, height := 2, metric := 0 }

/-- `Up`-successor of `c4parent`: the direction is dropped from the full
history. -/
def c4moved : Puzzle :=
  { grid := [1, 0, 3, 2], path := List.replicate 20 Direction.up,
    width := 2, height := 2, metric := 0 }

/-- A 2x2 state used for the move-inverse witness. -/
def c7start : Puzzle := mkInitial [1, 2, 0, 3] 2 2

/-- The `Up`-successor of `c7start`. -/
def c7q : Puzzle :=
  { grid := [0, 2, 1, 3],
    path := Direction.up :: List.replicate 19 Direction.none,
    width := 2, height := 2, metric := 0 }

/-- A 2x2 grid with no blank cell at all. -/
def c3noBlank : Puzzle := mkInitial [1, 2, 3, 4] 2 2

/-- Two states with different grids but equal ranks. -/
def c10a : Puzzle :=
  { grid := [1, 2, 3, 0], path := List.replicate 20 Direction.none,
    width := 2, height := 2, metric := 5 }

/-- See `c10a`. -/
def c10b : Puzzle :=
  { grid := [1, 2, 0, 3], path := List.replicate 20 Direction.none,
    width := 2, height := 2, metric := 5 }

/-- The grid has its unique blank (zero cell) at flat index `bi`. -/
def BlankAt (g : List Nat) (bi : Nat) : Prop :=
  bi < g.length ∧ g.getD bi 0 = 0 ∧
    ∀ j, j < g.length → j ≠ bi → g.getD j 0 ≠ 0

/-- Structural well-formedness of a search state: the dimensions are the
fixed `w`, `h`, the grid is a `w*h` vector of `u8` values with a unique
blank, and the history is a normal 20-slot array. -/
def StateOk (w h : Nat) (s : Puzzle) : Prop :=
  s.width = w ∧ s.height = h ∧ s.grid.length = w * h ∧
    (∃ bi, BlankAt s.grid bi) ∧ (∀ x ∈ s.grid, x < 256) ∧
    s.path.length = maxDepthConst ∧ IsNormal s.path

/-- The recorded history really leads from the initial grid to the state's
grid. -/
def ValidS (w h : Nat) (g0 : List Nat) (s : Puzzle) : Prop :=
  reach w h g0 (pathToVec s) s.grid

/-- The state's recorded history is a minimum-length route to its grid. -/
def Settled (w h : Nat) (g0 : List Nat) (s : Puzzle) : Prop :=
  ValidS w h g0 s ∧ ∀ l, reach w h g0 l s.grid → pathDepth s ≤ l.length

/-- Recorded depth of the queue's front element (`0` for an empty queue). -/
def frontDepth (q : List Puzzle) : Nat :=
  match q with
  | [] => 0
  | s :: _ => pathDepth s

/-- The BFS queue holds at most two consecutive depth levels, front first. -/
def TwoLevel (q : List Puzzle) : Prop :=
  List.Pairwise
    (fun s t => pathDepth s ≤ pathDepth t ∧ pathDepth t ≤ pathDepth s + 1) q

/-- Invariant of the BFS loop relating the queue and the visited registry
(`L` is the minimal solution length of the initial grid `g0`). -/
structure BfsInv (w h : Nat) (g0 : List Nat) (L : Nat)
    (q v : List Puzzle) : Prop where
  okQ : ∀ s ∈ q, StateOk w h s
  okV : ∀ s ∈ v, StateOk w h s
  qsubV : ∀ s ∈ q, s ∈ v
  two : TwoLevel q
  dist : DistinctGrids v
  depthV : ∀ s ∈ v, pathDepth s ≤ frontDepth q + 1
  inQ : ∀ s ∈ v, frontDepth q < pathDepth s → s ∈ q
  validLow : frontDepth q + 1 ≤ maxDepthConst → ∀ s ∈ v, ValidS w h g0 s
  goalQ : ∀ s ∈ q, s.grid = goalGrid w h →
    ValidS w h g0 s ∧ pathDepth s = L
  covers : ∃ s, s ∈ q ∧ Settled w h g0 s ∧
    ∃ m, reach w h s.grid m (goalGrid w h) ∧ pathDepth s + m.length = L

/-- Termination measure of the BFS loop: queue size, plus total stored
depth, plus `21` budget for each grid not yet stored (any `u8` grid of size
`w*h` is one of at most `256 ^ (w*h)`). -/
def bfsMeasure (w h : Nat) (q v : List Puzzle) : Nat :=
  q.length + (v.map pathDepth).sum + (256 ^ (w * h) - v.length) * 21

/-- Well-formedness of a bare grid: right size, `u8` entries, a unique
blank. -/
def GridOk (w h : Nat) (g : List Nat) : Prop :=
  g.length = w * h ∧ (∃ bi, BlankAt g bi) ∧ ∀ x ∈ g, x < 256

/-- Encoding of a `u8` grid of size `w*h` as a function, used to bound the
number of distinct grids the registry can ever hold. -/
def encGrid (w h : Nat) (g : List Nat) : Fin (w * h) → Fin 256 :=
  fun i => ⟨g.getD i.1 0 % 256, Nat.mod_lt _ (by norm_num)⟩

/-- A 21-move solution of the 2×3 configuration `[4,5,0,1,2,3]`. -/
def cexSol : List Direction :=
  [Direction.down, Direction.left, Direction.up, Direction.left,
   Direction.down, Direction.right, Direction.right, Direction.up,
   Direction.left, Direction.down, Direction.left, Direction.up,
   Direction.right, Direction.right, Direction.down, Direction.left,
   Direction.up, Direction.left, Direction.down, Direction.right,
   Direction.right]

/-- The first 20 moves of `cexSol`: once recorded, the fixed 20-slot
history array is full and any further move direction is dropped. -/
def cexPath : List Direction := cexSol.dropLast

/-- The search state holding the grid reached from `[4,5,0,1,2,3]` by
`cexPath`, with all 20 history slots occupied by `cexPath`. -/
def c1full : Puzzle :=
  { grid := [1, 2, 3, 4, 0, 5], path := cexPath, width := 3, height := 2,
    metric := 0 }

/-- The successor of `c1full` by the 21st move `right`: its grid is the
goal, but its recorded history is still `cexPath` — the move was dropped. -/
def c1solvedq : Puzzle :=
  { grid := [1, 2, 3, 4, 5, 0], path := cexPath, width := 3, height := 2,
    metric := 0 }

/-! ### Path-array lemmas -/

theorem pushPath_length (l : List Direction) (d : Direction) :
    (pushPath l d).length = l.length := by
  induction l with
  | nil => rfl
  | cons e rest ih => cases e <;> simp [pushPath, ih]

theorem length_pathToVec (p : Puzzle) : (pathToVec p).length = pathDepth p := by
  simp [pathToVec, pathDepth, List.countP_eq_length_filter]

theorem pathDepth_le_length (p : Puzzle) : pathDepth p ≤ p.path.length :=
  List.countP_le_length _

theorem pushPath_of_no_none (l : List Direction) (d : Direction)
    (h : ∀ e ∈ l, e ≠ Direction.none) : pushPath l d = l := by
  induction l with
  | nil => rfl
  | cons e rest ih =>
    have he := h e (List.mem_cons_self e rest)
    cases e
    case none => exact absurd rfl he
    all_goals
      simpa [pushPath] using ih (fun x hx => h x (List.mem_cons_of_mem _ hx))

theorem pushPath_append_none (a b : List Direction) (d : Direction)
    (ha : ∀ e ∈ a, e ≠ Direction.none) :
    pushPath (a ++ Direction.none :: b) d = a ++ d :: b := by
  induction a with
  | nil => rfl
  | cons e a ih =>
    have he := ha e (List.mem_cons_self e a)
    cases e
    case none => exact absurd rfl he
    all_goals
      simpa [pushPath] using ih (fun x hx => ha x (List.mem_cons_of_mem _ hx))

theorem exists_none_split (l : List Direction)
    (h : l.countP (fun e => e != Direction.none) < l.length) :
    ∃ a b, l = a ++ Direction.none :: b ∧ ∀ e ∈ a, e ≠ Direction.none := by
  induction l with
  | nil => simp at h
  | cons e rest ih =>
    by_cases he : e = Direction.none
    · exact ⟨[], rest, by simp [he], by simp⟩
    · have hcnt : rest.countP (fun e => e != Direction.none) < rest.length := by
        have : (e != Direction.none) = true := by simpa using he
        simpa [List.countP_cons, this] using h
      obtain ⟨a, b, hab, hane⟩ := ih hcnt
      refine ⟨e :: a, b, by simp [hab], ?_⟩
      intro x hx
      rcases List.mem_cons.mp hx with rfl | hx2
      · exact he
      · exact hane x hx2

theorem countP_pushPath_of_lt (l : List Direction) (d : Direction)
    (hd : d ≠ Direction.none)
    (h : l.countP (fun e => e != Direction.none) < l.length) :
    (pushPath l d).countP (fun e => e != Direction.none) =
      l.countP (fun e => e != Direction.none) + 1 := by
  obtain ⟨a, b, rfl, hane⟩ := exists_none_split l h
  rw [pushPath_append_none a b d hane]
  have hdb : (d != Direction.none) = true := by simpa using hd
  have hnn : (Direction.none != Direction.none) = false := by decide
  simp [List.countP_cons, hdb, hnn]
  omega

theorem pushPath_of_full (l : List Direction)
    (h : l.countP (fun e => e != Direction.none) = l.length) (d : Direction) :
    pushPath l d = l := by
  apply pushPath_of_no_none
  intro e he
  have := (List.countP_eq_length).mp h e he
  simpa using this

/-! ### Lemmas about `withMetric` and `moveEmpty` -/

theorem withMetric_grid (m : Option Metric) (q : Puzzle) :
    (withMetric m q).grid = q.grid := by
  cases m with
  | none => rfl
  | some met => cases met <;> rfl

theorem withMetric_path (m : Option Metric) (q : Puzzle) :
    (withMetric m q).path = q.path := by
  cases m with
  | none => rfl
  | some met => cases met <;> rfl

theorem withMetric_width (m : Option Metric) (q : Puzzle) :
    (withMetric m q).width = q.width := by
  cases m with
  | none => rfl
  | some met => cases met <;> rfl

theorem withMetric_height (m : Option Metric) (q : Puzzle) :
    (withMetric m q).height = q.height := by
  cases m with
  | none => rfl
  | some met => cases met <;> rfl

theorem withMetric_none (q : Puzzle) : withMetric Option.none q = q := rfl

theorem withMetric_some_metric (m : Metric) (q : Puzzle) :
    (withMetric (Option.some m) q).metric = pathDepth q + heuristicOf m q := by
  cases m <;> rfl

theorem hammingMetric_metric_irrel (q : Puzzle) (n : Nat) :
    hammingMetric { q with metric := n } = hammingMetric q := rfl

theorem manhattanMetric_metric_irrel (q : Puzzle) (n : Nat) :
    manhattanMetric { q with metric := n } = manhattanMetric q := rfl

theorem pathDepth_metric_irrel (q : Puzzle) (n : Nat) :
    pathDepth { q with metric := n } = pathDepth q := rfl

theorem moveSwap_fields (p : Puzzle) (y x ny nx : Nat) (d : Direction)
    (q : Puzzle) (h : moveSwap p y x ny nx d = PanicOr.ok (Option.some q)) :
    q.path = pushPath p.path d ∧ q.width = p.width ∧ q.height = p.height ∧
      q.grid.length = p.grid.length ∧ q.metric = p.metric := by
  simp only [moveSwap] at h
  split at h
  · injection h with h2
    injection h2 with h3
    subst h3
    exact ⟨rfl, rfl, rfl, by simp, rfl⟩
  · cases h

theorem moveEmpty_some_fields (p : Puzzle) (d : Direction) (q : Puzzle)
    (h : moveEmpty p d = PanicOr.ok (Option.some q)) :
    q.path = pushPath p.path d ∧ q.width = p.width ∧ q.height = p.height ∧
      q.grid.length = p.grid.length ∧ q.metric = p.metric ∧
      d ≠ Direction.none := by
  cases hep : emptyPosition? p with
  | none =>
    simp only [moveEmpty, hep] at h
    exact PanicOr.noConfusion h
  | some yx =>
    obtain ⟨y, x⟩ := yx
    cases d
    case up =>
      simp only [moveEmpty, hep] at h
      split at h
      · injection h with h2; injection h2
      · have hf := moveSwap_fields p _ _ _ _ _ q h
        exact ⟨hf.1, hf.2.1, hf.2.2.1, hf.2.2.2.1, hf.2.2.2.2,
          fun hc => Direction.noConfusion hc⟩
    case down =>
      simp only [moveEmpty, hep] at h
      split at h
      · injection h with h2; injection h2
      · have hf := moveSwap_fields p _ _ _ _ _ q h
        exact ⟨hf.1, hf.2.1, hf.2.2.1, hf.2.2.2.1, hf.2.2.2.2,
          fun hc => Direction.noConfusion hc⟩
    case left =>
      simp only [moveEmpty, hep] at h
      split at h
      · injection h with h2; injection h2
      · have hf := moveSwap_fields p _ _ _ _ _ q h
        exact ⟨hf.1, hf.2.1, hf.2.2.1, hf.2.2.2.1, hf.2.2.2.2,
          fun hc => Direction.noConfusion hc⟩
    case right =>
      simp only [moveEmpty, hep] at h
      split at h
      · injection h with h2; injection h2
      · have hf := moveSwap_fields p _ _ _ _ _ q h
        exact ⟨hf.1, hf.2.1, hf.2.2.1, hf.2.2.2.1, hf.2.2.2.2,
          fun hc => Direction.noConfusion hc⟩
    case none =>
      simp only [moveEmpty, hep] at h
      injection h with h2; injection h2

theorem neighboursGo_mem (p : Puzzle) (m : Option Metric)
    (ords : List Direction) (l : List Puzzle)
    (h : neighboursGo p m ords = PanicOr.ok l) :
    ∀ s ∈ l, ∃ d q, d ∈ ords ∧ (d.opposite == lastMove p) = false ∧
      moveEmpty p d = PanicOr.ok (Option.some q) ∧ s = withMetric m q := by
  induction ords generalizing l with
  | nil =>
    injection h with h2
    subst h2
    intro s hs
    cases hs
  | cons d rest ih =>
    unfold neighboursGo at h
    by_cases hskip : (d.opposite == lastMove p) = true
    · rw [if_pos hskip] at h
      intro s hs
      obtain ⟨d2, q, hd2, hsk, hmv, hs2⟩ := ih l h s hs
      exact ⟨d2, q, List.mem_cons_of_mem _ hd2, hsk, hmv, hs2⟩
    · rw [if_neg hskip] at h
      cases hmv : moveEmpty p d with
      | panic => rw [hmv] at h; cases h
      | ok oq =>
        rw [hmv] at h
        cases oq with
        | none =>
          intro s hs
          obtain ⟨d2, q, hd2, hsk, hmv2, hs2⟩ := ih l h s hs
          exact ⟨d2, q, List.mem_cons_of_mem _ hd2, hsk, hmv2, hs2⟩
        | some q =>
          cases hrest : neighboursGo p m rest with
          | panic => rw [hrest] at h; cases h
          | ok l2 =>
            rw [hrest] at h
            injection h with h2
            subst h2
            intro s hs
            rcases List.mem_cons.mp hs with rfl | hs2
            · exact ⟨d, q, List.mem_cons_self d rest,
                by simpa using hskip, hmv, rfl⟩
            · obtain ⟨d2, q2, hd2, hsk, hmv2, hs3⟩ := ih l2 hrest s hs2
              exact ⟨d2, q2, List.mem_cons_of_mem _ hd2, hsk, hmv2, hs3⟩

theorem neighboursGo_mem_of (p : Puzzle) (m : Option Metric)
    (ords : List Direction) (l : List Puzzle)
    (h : neighboursGo p m ords = PanicOr.ok l) (d : Direction) (q : Puzzle)
    (hd : d ∈ ords) (hskip : (d.opposite == lastMove p) = false)
    (hmv : moveEmpty p d = PanicOr.ok (Option.some q)) :
    withMetric m q ∈ l := by
  induction ords generalizing l with
  | nil => cases hd
  | cons d0 rest ih =>
    unfold neighboursGo at h
    rcases List.mem_cons.mp hd with rfl | hd2
    · rw [if_neg (by simp [hskip]), hmv] at h
      cases hrest : neighboursGo p m rest with
      | panic => rw [hrest] at h; cases h
      | ok l2 =>
        rw [hrest] at h
        injection h with h2
        subst h2
        exact List.mem_cons_self _ _
    · by_cases hskip0 : (d0.opposite == lastMove p) = true
      · rw [if_pos hskip0] at h
        exact ih l h hd2
      · rw [if_neg hskip0] at h
        cases hmv0 : moveEmpty p d0 with
        | panic => rw [hmv0] at h; cases h
        | ok oq =>
          rw [hmv0] at h
          cases oq with
          | none => exact ih l h hd2
          | some q0 =>
            cases hrest : neighboursGo p m rest with
            | panic => rw [hrest] at h; cases h
            | ok l2 =>
              rw [hrest] at h
              injection h with h2
              subst h2
              exact List.mem_cons_of_mem _ (ih l2 hrest hd2)

/-! ### Heap-pop lemmas -/

theorem heapPop_eq_none (q : List Puzzle) :
    heapPop q = Option.none ↔ q = [] := by
  cases q with
  | nil => simp [heapPop]
  | cons a rest =>
    simp only [heapPop]
    cases heapPop rest with
    | none => simp
    | some mr => cases mr with | mk m r => by_cases h : a.metric ≤ m.metric <;> simp [h]

theorem heapPop_min (q : List Puzzle) (s : Puzzle) (rest : List Puzzle)
    (h : heapPop q = Option.some (s, rest)) :
    s ∈ q ∧ ∀ t ∈ q, s.metric ≤ t.metric := by
  induction q generalizing s rest with
  | nil => cases h
  | cons a q2 ih =>
    cases hq : heapPop q2 with
    | none =>
      have hnil : q2 = [] := (heapPop_eq_none q2).mp hq
      subst hnil
      simp only [heapPop] at h
      injection h with h2
      injection h2 with h3 h4
      subst h3
      refine ⟨List.mem_cons_self _ _, ?_⟩
      intro t ht
      have ht2 := List.mem_singleton.mp ht
      subst ht2
      exact Nat.le_refl _
    | some mr =>
      obtain ⟨m, r2⟩ := mr
      simp only [heapPop, hq] at h
      obtain ⟨hm, hmin⟩ := ih m r2 hq
      by_cases hle : a.metric ≤ m.metric
      · rw [if_pos hle] at h
        injection h with h2
        injection h2 with h3 h4
        subst h3
        refine ⟨List.mem_cons_self _ _, ?_⟩
        intro t ht
        rcases List.mem_cons.mp ht with rfl | ht2
        · exact Nat.le_refl _
        · exact Nat.le_trans hle (hmin t ht2)
      · rw [if_neg hle] at h
        injection h with h2
        injection h2 with h3 h4
        subst h3
        refine ⟨List.mem_cons_of_mem _ hm, ?_⟩
        intro t ht
        rcases List.mem_cons.mp ht with rfl | ht2
        · exact Nat.le_of_lt (Nat.lt_of_not_le hle)
        · exact hmin t ht2

/-! ### Blank-position lemmas -/

theorem findIdx_of_first (g : List Nat) (bi : Nat) (hbi : bi < g.length)
    (hz : g.getD bi 0 = 0) (hpre : ∀ j, j < bi → g.getD j 0 ≠ 0) :
    g.findIdx? (fun v => v == 0) = Option.some bi := by
  induction g generalizing bi with
  | nil => simp at hbi
  | cons v t ih =>
    cases bi with
    | zero =>
      have : v = 0 := hz
      simp [List.findIdx?_cons, this]
    | succ b2 =>
      have hv : v ≠ 0 := hpre 0 (Nat.succ_pos b2)
      have ht := ih b2 (Nat.lt_of_succ_lt_succ hbi) hz
        (fun j hj => hpre (j + 1) (Nat.succ_lt_succ hj))
      simp [List.findIdx?_cons, hv, ht]

theorem blankAt_findIdx (g : List Nat) (bi : Nat) (h : BlankAt g bi) :
    g.findIdx? (fun v => v == 0) = Option.some bi :=
  findIdx_of_first g bi h.1 h.2.1
    (fun j hj => h.2.2 j (Nat.lt_trans hj h.1) (Nat.ne_of_lt hj))

theorem count_one_blankAt (g : List Nat) (h : g.count 0 = 1) :
    ∃ bi, BlankAt g bi := by
  induction g with
  | nil => simp at h
  | cons v t ih =>
    by_cases hv : v = 0
    · subst hv
      have ht : t.count 0 = 0 := by
        rw [List.count_cons_self] at h
        omega
      have hnot : (0 : Nat) ∉ t := List.count_eq_zero.mp ht
      refine ⟨0, by simp, rfl, ?_⟩
      intro j hj hj0
      cases j with
      | zero => exact absurd rfl hj0
      | succ j2 =>
        intro hcon
        have hcon2 : t.getD j2 0 = 0 := by simpa using hcon
        have hjl : j2 < t.length := by simpa using hj
        have hmem : t.getD j2 0 ∈ t := by
          rw [List.getD_eq_getElem _ _ hjl]
          exact List.getElem_mem hjl
        rw [hcon2] at hmem
        exact hnot hmem
    · have hcnt : t.count 0 = 1 := by
        rwa [List.count_cons_of_ne (fun e => hv e.symm)] at h
      obtain ⟨bi, hlt, hz, hu⟩ := ih hcnt
      refine ⟨bi + 1, by simpa using Nat.succ_lt_succ hlt, by simpa using hz, ?_⟩
      intro j hj hne
      cases j with
      | zero => simpa using hv
      | succ j2 =>
        have hne2 : j2 ≠ bi := fun e => hne (by rw [e])
        simpa using hu j2 (by simpa using hj) hne2

theorem blankAt_count_one (g : List Nat) (bi : Nat) (h : BlankAt g bi) :
    g.count 0 = 1 := by
  obtain ⟨hlt, hz, hu⟩ := h
  induction g generalizing bi with
  | nil => simp at hlt
  | cons v t ih =>
    cases bi with
    | zero =>
      have hv : v = 0 := hz
      subst hv
      have hnot : (0 : Nat) ∉ t := by
        intro hmem
        obtain ⟨j, hj, hje⟩ := List.getElem_of_mem hmem
        have : t.getD j 0 ≠ 0 := by
          have := hu (j + 1) (Nat.succ_lt_succ hj) (Nat.succ_ne_zero j)
          simpa using this
        rw [List.getD_eq_getElem _ _ hj] at this
        exact this hje
      rw [List.count_cons_self, List.count_eq_zero.mpr hnot]
    | succ b2 =>
      have hv : v ≠ 0 := by
        have := hu 0 (Nat.succ_pos _) (Nat.succ_ne_zero b2).symm
        simpa using this
      have ht := ih b2 (Nat.lt_of_succ_lt_succ hlt) (by simpa using hz)
        (fun j hj hne => by
          have := hu (j + 1) (Nat.succ_lt_succ hj)
            (fun e => hne (Nat.succ_injective e))
          simpa using this)
      rw [List.count_cons_of_ne (fun e => hv e.symm)]
      exact ht

theorem set_swap_getD (g : List Nat) (bi ti : Nat) (hne : ti ≠ bi) :
    ((g.set bi (g.getD ti 0)).set ti 0).length = g.length ∧
    (bi < g.length → ti < g.length →
      ((g.set bi (g.getD ti 0)).set ti 0).getD ti 0 = 0 ∧
      ((g.set bi (g.getD ti 0)).set ti 0).getD bi 0 = g.getD ti 0) ∧
    ∀ j, j ≠ bi → j ≠ ti →
      ((g.set bi (g.getD ti 0)).set ti 0).getD j 0 = g.getD j 0 := by
  refine ⟨by simp, fun hbi hti => ⟨?_, ?_⟩, fun j hjb hjt => ?_⟩
  · rw [List.getD_eq_getElem?_getD, List.getElem?_set_self (by simpa using hti)]
    rfl
  · rw [List.getD_eq_getElem?_getD, List.getElem?_set_ne hne,
      List.getElem?_set_self hbi]
    simp
  · rw [List.getD_eq_getElem?_getD, List.getElem?_set_ne (fun e => hjt e.symm),
      List.getElem?_set_ne (fun e => hjb e.symm), List.getD_eq_getElem?_getD]

theorem moveSwap_ok (p : Puzzle) (y x ny nx : Nat) (d : Direction)
    (h1 : y * p.width + x < p.grid.length)
    (h2 : ny * p.width + nx < p.grid.length) :
    moveSwap p y x ny nx d = PanicOr.ok (Option.some
      { p with
        grid := (p.grid.set (y * p.width + x)
            (p.grid.getD (ny * p.width + nx) 0)).set (ny * p.width + nx) 0,
        path := pushPath p.path d }) := by
  simp only [moveSwap]
  rw [if_pos ⟨h1, h2⟩]

theorem moveEmpty_char (p : Puzzle) (bi : Nat)
    (hlen : p.grid.length = p.width * p.height)
    (hba : BlankAt p.grid bi) (d : Direction) (hd : d ≠ Direction.none) :
    (blockedAt p.width p.height bi d →
      moveEmpty p d = PanicOr.ok Option.none) ∧
    (¬ blockedAt p.width p.height bi d →
      moveEmpty p d = PanicOr.ok (Option.some
        { p with
          grid := (p.grid.set bi (p.grid.getD (tgtIdx p.width bi d) 0)).set
            (tgtIdx p.width bi d) 0,
          path := pushPath p.path d }) ∧
      tgtIdx p.width bi d < p.grid.length ∧ tgtIdx p.width bi d ≠ bi) := by
  have hfi := blankAt_findIdx p.grid bi hba
  have hep : emptyPosition? p =
      Option.some (bi / p.width, bi % p.width) := by
    simp [emptyPosition?, hfi]
  have hbl : bi < p.width * p.height := hlen ▸ hba.1
  have hw : 0 < p.width := by
    rcases Nat.eq_zero_or_pos p.width with h0 | h
    · rw [h0] at hbl; simp at hbl
    · exact h
  have hh : 0 < p.height := by
    rcases Nat.eq_zero_or_pos p.height with h0 | h
    · rw [h0, Nat.mul_zero] at hbl; simp at hbl
    · exact h
  have hyx : bi / p.width * p.width + bi % p.width = bi :=
    Nat.div_add_mod' bi p.width
  have hxlt : bi % p.width < p.width := Nat.mod_lt _ hw
  have hylt : bi / p.width < p.height :=
    (Nat.div_lt_iff_lt_mul hw).mpr (by rw [Nat.mul_comm]; exact hbl)
  cases d
  case none => exact absurd rfl hd
  case up =>
    constructor
    · intro hb
      have hb2 : bi / p.width = 0 := hb
      simp only [moveEmpty, hep]
      rw [if_pos hb2]
    · intro hnb
      have hy0 : ¬ bi / p.width = 0 := hnb
      have hy1 : 1 ≤ bi / p.width := Nat.pos_of_ne_zero hy0
      have hmul : bi / p.width * p.width =
          (bi / p.width - 1) * p.width + p.width := by
        cases hc : bi / p.width with
        | zero => exact absurd hc hy0
        | succ y2 => simp [Nat.succ_sub_one, Nat.succ_mul]
      have htgt : (bi / p.width - 1) * p.width + bi % p.width =
          bi - p.width := by omega
      have htlt : bi - p.width < p.grid.length :=
        Nat.lt_of_le_of_lt (Nat.sub_le _ _) hba.1
      have hwle : p.width ≤ bi := by
        have := Nat.le_mul_of_pos_left p.width hy1
        omega
      have htne : bi - p.width ≠ bi := by omega
      refine ⟨?_, ?_, ?_⟩
      · simp only [moveEmpty, hep]
        rw [if_neg hy0,
          moveSwap_ok p _ _ _ _ _ (by rw [hyx]; exact hba.1)
            (by rw [htgt]; exact htlt),
          hyx, htgt]
        rfl
      · show bi - p.width < p.grid.length
        exact htlt
      · exact htne
  case down =>
    constructor
    · intro hb
      have hb2 : bi / p.width = p.height - 1 := hb
      simp only [moveEmpty, hep]
      rw [if_pos hb2]
    · intro hnb
      have hy0 : ¬ bi / p.width = p.height - 1 := hnb
      have hylt2 : bi / p.width < p.height - 1 := by omega
      have hmul : (bi / p.width + 1) * p.width =
          bi / p.width * p.width + p.width := by
        simp [Nat.succ_mul]
      have htgt : (bi / p.width + 1) * p.width + bi % p.width =
          bi + p.width := by omega
      have htlt : bi + p.width < p.grid.length := by
        have h2 : (bi / p.width + 2) * p.width ≤ p.height * p.width :=
          Nat.mul_le_mul_right _ (by omega)
        have h3 : (bi / p.width + 2) * p.width =
            bi / p.width * p.width + 2 * p.width := Nat.add_mul _ _ _
        have h4 : p.height * p.width = p.width * p.height := Nat.mul_comm _ _
        rw [hlen]
        omega
      have htne : bi + p.width ≠ bi := by omega
      refine ⟨?_, ?_, ?_⟩
      · simp only [moveEmpty, hep]
        rw [if_neg hy0,
          moveSwap_ok p _ _ _ _ _ (by rw [hyx]; exact hba.1)
            (by rw [htgt]; exact htlt),
          hyx, htgt]
        rfl
      · show bi + p.width < p.grid.length
        exact htlt
      · exact htne
  case left =>
    constructor
    · intro hb
      have hb2 : bi % p.width = 0 := hb
      simp only [moveEmpty, hep]
      rw [if_pos hb2]
    · intro hnb
      have hx0 : ¬ bi % p.width = 0 := hnb
      have hx1 : 1 ≤ bi % p.width := Nat.pos_of_ne_zero hx0
      have htgt : bi / p.width * p.width + (bi % p.width - 1) =
          bi - 1 := by omega
      have htlt : bi - 1 < p.grid.length :=
        Nat.lt_of_le_of_lt (Nat.sub_le _ _) hba.1
      have htne : bi - 1 ≠ bi := by omega
      refine ⟨?_, ?_, ?_⟩
      · simp only [moveEmpty, hep]
        rw [if_neg hx0,
          moveSwap_ok p _ _ _ _ _ (by rw [hyx]; exact hba.1)
            (by rw [htgt]; exact htlt),
          hyx, htgt]
        rfl
      · show bi - 1 < p.grid.length
        exact htlt
      · exact htne
  case right =>
    constructor
    · intro hb
      have hb2 : bi % p.width = p.width - 1 := hb
      simp only [moveEmpty, hep]
      rw [if_pos hb2]
    · intro hnb
      have hx0 : ¬ bi % p.width = p.width - 1 := hnb
      have hxlt2 : bi % p.width < p.width - 1 := by omega
      have htgt : bi / p.width * p.width + (bi % p.width + 1) =
          bi + 1 := by omega
      have htlt : bi + 1 < p.grid.length := by
        have h2 : (bi / p.width + 1) * p.width ≤ p.height * p.width :=
          Nat.mul_le_mul_right _ (by omega)
        have h3 : (bi / p.width + 1) * p.width =
            bi / p.width * p.width + p.width := Nat.succ_mul _ _
        have h4 : p.height * p.width = p.width * p.height := Nat.mul_comm _ _
        rw [hlen]
        omega
      have htne : bi + 1 ≠ bi := by omega
      refine ⟨?_, ?_, ?_⟩
      · simp only [moveEmpty, hep]
        rw [if_neg hx0,
          moveSwap_ok p _ _ _ _ _ (by rw [hyx]; exact hba.1)
            (by rw [htgt]; exact htlt),
          hyx, htgt]
        rfl
      · show bi + 1 < p.grid.length
        exact htlt
      · exact htne

theorem eq_of_getD (l1 l2 : List Nat) (hlen : l1.length = l2.length)
    (h : ∀ j, j < l1.length → l1.getD j 0 = l2.getD j 0) : l1 = l2 := by
  apply List.ext_getElem hlen
  intro i h1 h2
  have h3 := h i h1
  rwa [List.getD_eq_getElem _ _ h1, List.getD_eq_getElem _ _ h2] at h3

theorem div_mod_of_row (w : Nat) (hw : 0 < w) (a r : Nat) (hr : r < w) :
    (a * w + r) / w = a ∧ (a * w + r) % w = r := by
  constructor
  · rw [Nat.mul_comm a w, Nat.mul_add_div hw, Nat.div_eq_of_lt hr]
    omega
  · rw [Nat.mul_comm a w, Nat.mul_add_mod, Nat.mod_eq_of_lt hr]


theorem tgt_reverse (w h bi : Nat) (hw : 0 < w) (hbl : bi < w * h)
    (d : Direction) (hd : d ≠ Direction.none)
    (hb : ¬ blockedAt w h bi d) :
    ¬ blockedAt w h (tgtIdx w bi d) d.opposite ∧
      tgtIdx w (tgtIdx w bi d) d.opposite = bi := by
  have hyx : bi / w * w + bi % w = bi := Nat.div_add_mod' bi w
  have hxlt : bi % w < w := Nat.mod_lt _ hw
  have hylt : bi / w < h :=
    (Nat.div_lt_iff_lt_mul hw).mpr (by rw [Nat.mul_comm]; exact hbl)
  have hwle1 : 1 ≤ bi / w → w ≤ bi / w * w := by
    intro h1
    have := Nat.le_mul_of_pos_left w h1
    omega
  cases d
  case none => exact absurd rfl hd
  case up =>
    have hy1 : 1 ≤ bi / w := Nat.pos_of_ne_zero hb
    have hmul : bi / w * w = (bi / w - 1) * w + w := by
      cases hc : bi / w with
      | zero => omega
      | succ y2 => simp [Nat.succ_sub_one, Nat.succ_mul]
    have hti : bi - w = (bi / w - 1) * w + bi % w := by omega
    have hdm := div_mod_of_row w hw (bi / w - 1) (bi % w) hxlt
    constructor
    · show ¬ (bi - w) / w = h - 1
      rw [hti, hdm.1]
      revert hy1 hylt
      generalize bi / w = yv
      intro hy1 hylt hcon
      omega
    · show bi - w + w = bi
      have := hwle1 hy1
      omega
  case down =>
    have hyne : ¬ bi / w = h - 1 := hb
    have hmul : (bi / w + 1) * w = bi / w * w + w := by
      have h3 : (bi / w + 1) * w = bi / w * w + 1 * w := Nat.add_mul _ _ _
      omega
    have hti : bi + w = (bi / w + 1) * w + bi % w := by omega
    have hdm := div_mod_of_row w hw (bi / w + 1) (bi % w) hxlt
    constructor
    · show ¬ (bi + w) / w = 0
      rw [hti, hdm.1]
      exact Nat.succ_ne_zero _
    · show bi + w - w = bi
      omega
  case left =>
    have hx1 : 1 ≤ bi % w := Nat.pos_of_ne_zero hb
    have hti : bi - 1 = bi / w * w + (bi % w - 1) := by omega
    have hdm := div_mod_of_row w hw (bi / w) (bi % w - 1) (by omega)
    constructor
    · show ¬ (bi - 1) % w = w - 1
      rw [hti, hdm.2]
      revert hx1 hxlt
      generalize bi % w = xv
      intro hx1 hxlt hcon
      omega
    · show bi - 1 + 1 = bi
      omega
  case right =>
    have hxne : ¬ bi % w = w - 1 := hb
    have hti : bi + 1 = bi / w * w + (bi % w + 1) := by omega
    have hdm := div_mod_of_row w hw (bi / w) (bi % w + 1) (by omega)
    constructor
    · show ¬ (bi + 1) % w = 0
      rw [hti, hdm.2]
      exact Nat.succ_ne_zero _
    · show bi + 1 - 1 = bi
      omega

/-! ### Normal-path lemmas -/

theorem isNormal_replicate (n : Nat) :
    IsNormal (List.replicate n Direction.none) :=
  ⟨[], List.replicate n Direction.none, by simp, by simp,
    fun d hd => List.eq_of_mem_replicate hd⟩

theorem filter_of_normal (a b : List Direction)
    (ha : ∀ d ∈ a, d ≠ Direction.none) (hb : ∀ d ∈ b, d = Direction.none) :
    (a ++ b).filter (fun d => d != Direction.none) = a := by
  rw [List.filter_append]
  have h1 : a.filter (fun d => d != Direction.none) = a :=
    List.filter_eq_self.mpr (fun x hx => by simpa using ha x hx)
  have h2 : b.filter (fun d => d != Direction.none) = [] :=
    List.filter_eq_nil_iff.mpr (fun x hx => by simpa using hb x hx)
  rw [h1, h2, List.append_nil]

theorem countP_of_normal (a b : List Direction)
    (ha : ∀ d ∈ a, d ≠ Direction.none) (hb : ∀ d ∈ b, d = Direction.none) :
    (a ++ b).countP (fun d => d != Direction.none) = a.length := by
  rw [List.countP_eq_length_filter, filter_of_normal a b ha hb]

theorem isNormal_push (a b : List Direction) (d : Direction)
    (ha : ∀ e ∈ a, e ≠ Direction.none) (hb : ∀ e ∈ b, e = Direction.none)
    (hd : d ≠ Direction.none) (hbne : b ≠ []) :
    pushPath (a ++ b) d = (a ++ [d]) ++ b.tail ∧
      (∀ e ∈ a ++ [d], e ≠ Direction.none) ∧
      (∀ e ∈ b.tail, e = Direction.none) := by
  cases b with
  | nil => exact absurd rfl hbne
  | cons e b2 =>
    have he : e = Direction.none := hb e (List.mem_cons_self e b2)
    subst he
    refine ⟨?_, ?_, ?_⟩
    · rw [pushPath_append_none a b2 d ha]
      simp
    · intro e he2
      rcases List.mem_append.mp he2 with h1 | h1
      · exact ha e h1
      · rw [List.mem_singleton.mp h1]; exact hd
    · intro e he2
      exact hb e (List.mem_cons_of_mem _ (by simpa using he2))

/-! ### Claim C10 -/

/-- C10: the `Ord` instance on puzzle states depends only on the `metric`
(rank) field, reversed (`lt` exactly when the other state's rank is
strictly smaller), so popping the binary max-heap yields a state of minimal
rank; two states with different grids but equal ranks compare as `eq` under
the ordering while being unequal under the grid-based `PartialEq`. -/
theorem c10_ordering_ignores_grid :
    (∀ a b a2 b2 : Puzzle, a.metric = a2.metric → b.metric = b2.metric →
      puzzleCmp a b = puzzleCmp a2 b2) ∧
    (∀ a b : Puzzle, puzzleCmp a b = Ordering.lt ↔ b.metric < a.metric) ∧
    (∀ (q : List Puzzle) (s : Puzzle) (rest : List Puzzle),
      heapPop q = Option.some (s, rest) →
        s ∈ q ∧ ∀ t ∈ q, s.metric ≤ t.metric) ∧
    (puzzleCmp c10a c10b = Ordering.eq ∧ puzzleEqb c10a c10b = false) := by
  refine ⟨?_, ?_, heapPop_min, by decide⟩
  · intro a b a2 b2 h1 h2
    simp [puzzleCmp, h1, h2]
  · intro a b
    rw [puzzleCmp, Nat.compare_swap, Nat.compare_eq_lt]

/-- Witness for C10 at concrete inputs. -/
theorem c10_witness :
    puzzleCmp c10a c10b = puzzleCmp c10b c10a ∧
      (c10b ∈ [c10b, c10a] ∧ ∀ t ∈ [c10b, c10a], c10b.metric ≤ t.metric) :=
  ⟨c10_ordering_ignores_grid.1 c10a c10b c10b c10a rfl rfl,
    c10_ordering_ignores_grid.2.2.1 [c10b, c10a] c10b [c10a] (by decide)⟩

/-! ### Claim C2 -/

/-- C2 counterexample: from a state whose last recorded move is `Down`, the
move `Up` (the exact inverse) is legal, yet the A* neighbour generation
(`get_neighbour_states` with a heuristic) does not produce the corresponding
successor: the skip of the last move's inverse is applied for A* as well. -/
theorem c2_counterexample :
    moveEmpty c2parent Direction.up = PanicOr.ok (Option.some c2upChild) ∧
    lastMove c2parent = Direction.down ∧
    Direction.up.opposite = Direction.down ∧
    getNeighbourStates c2parent priorityOrder (Option.some Metric.hamming) =
      PanicOr.ok [c2leftChild] ∧
    c2leftChild.grid ≠ c2upChild.grid := by
  refine ⟨by decide, by decide, rfl, by decide, by decide⟩

/-- C2 amended: the A* driver's neighbour generation applies exactly the
same inverse-of-last-move skip as the BFS/DFS generation — with a heuristic
supplied it returns precisely the heuristic-free successor list, each state
additionally tagged with its rank. -/
theorem c2_astar_same_skip (p : Puzzle) (ord : List Direction) (m : Metric) :
    getNeighbourStates p ord (Option.some m) =
      pmapStates (withMetric (Option.some m))
        (getNeighbourStates p ord Option.none) := by
  unfold getNeighbourStates
  induction ord with
  | nil => rfl
  | cons d rest ih =>
    unfold neighboursGo
    by_cases hskip : (d.opposite == lastMove p) = true
    · rw [if_pos hskip, if_pos hskip]
      exact ih
    · rw [if_neg hskip, if_neg hskip]
      cases hmv : moveEmpty p d with
      | panic =>
        cases hrest : neighboursGo p Option.none rest <;> rfl
      | ok oq =>
        cases oq with
        | none => exact ih
        | some q =>
          rw [ih]
          cases hrest : neighboursGo p Option.none rest with
          | panic => rfl
          | ok l => rfl

/-! ### Claim C4 -/

/-- C4 counterexample: on a state with exactly one blank whose 20-slot
history is already full, a legal move succeeds but the direction is *not*
appended to the history — the new state's history equals the parent's. -/
theorem c4_counterexample :
    c4parent.grid.count 0 = 1 ∧
    moveEmpty c4parent Direction.up = PanicOr.ok (Option.some c4moved) ∧
    pathToVec c4moved = pathToVec c4parent ∧
    pathToVec c4moved ≠ pathToVec c4parent ++ [Direction.up] := by
  refine ⟨by decide, by decide, by decide, by decide⟩

/-- C4 (amended): for a state with a unique blank, a move returns nothing
exactly when it is blocked by the boundary; otherwise it never panics and
returns a state whose grid is the parent's with the blank and target cells
swapped, and whose path array gets the direction written into the first free
sentinel slot — so the recorded history is the parent's with the direction
appended while a free slot exists, and is unchanged (the move is silently
dropped) when all 20 slots are full.  The parent state itself is a pure
value and is not modified. -/
theorem c4_move_spec (p : Puzzle) (bi : Nat)
    (hlen : p.grid.length = p.width * p.height)
    (hba : BlankAt p.grid bi)
    (d : Direction) (hd : d ≠ Direction.none) :
    moveEmpty p d ≠ PanicOr.panic ∧
    (blockedAt p.width p.height bi d →
      moveEmpty p d = PanicOr.ok Option.none) ∧
    (¬ blockedAt p.width p.height bi d →
      ∃ q, moveEmpty p d = PanicOr.ok (Option.some q) ∧
        q.width = p.width ∧ q.height = p.height ∧
        q.grid.length = p.grid.length ∧
        q.grid.getD (tgtIdx p.width bi d) 0 = 0 ∧
        q.grid.getD bi 0 = p.grid.getD (tgtIdx p.width bi d) 0 ∧
        (∀ j, j ≠ bi → j ≠ tgtIdx p.width bi d →
          q.grid.getD j 0 = p.grid.getD j 0) ∧
        q.path = pushPath p.path d ∧
        (IsNormal p.path →
          (pathDepth p < p.path.length →
            pathToVec q = pathToVec p ++ [d]) ∧
          (pathDepth p = p.path.length → pathToVec q = pathToVec p))) := by
  obtain ⟨hblock, hfree⟩ := moveEmpty_char p bi hlen hba d hd
  refine ⟨?_, hblock, ?_⟩
  · by_cases hb : blockedAt p.width p.height bi d
    · rw [hblock hb]; intro hc; cases hc
    · rw [(hfree hb).1]; intro hc; cases hc
  · intro hb
    obtain ⟨hmv, htlt, htne⟩ := hfree hb
    obtain ⟨hlen2, hmid, hrest⟩ :=
      set_swap_getD p.grid bi (tgtIdx p.width bi d) htne
    refine ⟨_, hmv, rfl, rfl, hlen2, (hmid hba.1 htlt).1, (hmid hba.1 htlt).2,
      fun j hjb hjt => hrest j hjb hjt, rfl, ?_⟩
    intro hnorm
    obtain ⟨a, b, hab, ha, hbn⟩ := hnorm
    have hdepth : pathDepth p = a.length := by
      rw [pathDepth, hab, countP_of_normal a b ha hbn]
    constructor
    · intro hlt
      have hbne : b ≠ [] := by
        intro he
        rw [hab, he, List.append_nil] at hlt
        rw [hdepth] at hlt
        exact Nat.lt_irrefl _ hlt
      obtain ⟨hpush, ha2, hb2⟩ := isNormal_push a b d ha hbn hd hbne
      show (pushPath p.path d).filter (fun e => e != Direction.none) = _
      rw [hab, hpush, filter_of_normal (a ++ [d]) b.tail ha2 hb2]
      show a ++ [d] = pathToVec p ++ [d]
      rw [pathToVec, hab, filter_of_normal a b ha hbn]
    · intro heq
      have hbe : b = [] := by
        have h7 : p.path.length = a.length + b.length := by
          rw [hab, List.length_append]
        have hbl2 : b.length = 0 := by omega
        exact List.length_eq_zero.mp hbl2
      subst hbe
      have hpa : p.path = a := by rw [hab, List.append_nil]
      have hpush : pushPath p.path d = p.path := by
        rw [hpa]
        exact pushPath_of_no_none a d ha
      show (pushPath p.path d).filter (fun e => e != Direction.none) =
        pathToVec p
      rw [hpush]
      rfl

/-- C4 witness at a concrete state and move. -/
theorem c4_witness :
    moveEmpty c7start Direction.up ≠ PanicOr.panic ∧
    (blockedAt c7start.width c7start.height 2 Direction.up →
      moveEmpty c7start Direction.up = PanicOr.ok Option.none) ∧
    (¬ blockedAt c7start.width c7start.height 2 Direction.up →
      ∃ q, moveEmpty c7start Direction.up = PanicOr.ok (Option.some q) ∧
        q.width = c7start.width ∧ q.height = c7start.height ∧
        q.grid.length = c7start.grid.length ∧
        q.grid.getD (tgtIdx c7start.width 2 Direction.up) 0 = 0 ∧
        q.grid.getD 2 0 =
          c7start.grid.getD (tgtIdx c7start.width 2 Direction.up) 0 ∧
        (∀ j, j ≠ 2 → j ≠ tgtIdx c7start.width 2 Direction.up →
          q.grid.getD j 0 = c7start.grid.getD j 0) ∧
        q.path = pushPath c7start.path Direction.up ∧
        (IsNormal c7start.path →
          (pathDepth c7start < c7start.path.length →
            pathToVec q = pathToVec c7start ++ [Direction.up]) ∧
          (pathDepth c7start = c7start.path.length →
            pathToVec q = pathToVec c7start))) :=
  c4_move_spec c7start 2 (by decide) ⟨by decide, by decide, by decide⟩
    Direction.up (by decide)

/-! ### Claim C7 -/

theorem moveEmpty_inverse (p : Puzzle) (bi : Nat)
    (hlen : p.grid.length = p.width * p.height)
    (hba : BlankAt p.grid bi) (d : Direction) (q : Puzzle)
    (h : moveEmpty p d = PanicOr.ok (Option.some q)) :
    ∃ q2, moveEmpty q d.opposite = PanicOr.ok (Option.some q2) ∧
      q2.grid = p.grid := by
  have hd : d ≠ Direction.none := (moveEmpty_some_fields p d q h).2.2.2.2.2
  obtain ⟨hblock, hfree⟩ := moveEmpty_char p bi hlen hba d hd
  have hbl : bi < p.width * p.height := hlen ▸ hba.1
  have hw : 0 < p.width := by
    rcases Nat.eq_zero_or_pos p.width with h0 | hp
    · rw [h0] at hbl; simp at hbl
    · exact hp
  by_cases hb : blockedAt p.width p.height bi d
  · rw [hblock hb] at h; cases h
  · obtain ⟨hmv, htlt, htne⟩ := hfree hb
    rw [hmv] at h
    injection h with h2
    injection h2 with h3
    obtain ⟨hrev, hrt⟩ := tgt_reverse p.width p.height bi hw hbl d hd hb
    obtain ⟨hlen2, hmid, hrest⟩ :=
      set_swap_getD p.grid bi (tgtIdx p.width bi d) htne
    have hvne : p.grid.getD (tgtIdx p.width bi d) 0 ≠ 0 :=
      hba.2.2 (tgtIdx p.width bi d) htlt htne
    have hqgrid : q.grid =
        (p.grid.set bi (p.grid.getD (tgtIdx p.width bi d) 0)).set
          (tgtIdx p.width bi d) 0 := by rw [h3.symm]
    have hqw : q.width = p.width := by rw [h3.symm]
    have hqh : q.height = p.height := by rw [h3.symm]
    have hqlen : q.grid.length = p.grid.length := by rw [hqgrid]; simp
    have hqlen2 : q.grid.length = q.width * q.height := by
      rw [hqlen, hqw, hqh]; exact hlen
    have hqba : BlankAt q.grid (tgtIdx p.width bi d) := by
      refine ⟨by rw [hqlen]; exact htlt, by
        rw [hqgrid]; exact (hmid hba.1 htlt).1, ?_⟩
      intro j hj hjne
      rw [hqlen] at hj
      by_cases hjb : j = bi
      · subst hjb
        rw [hqgrid]
        rw [(hmid hba.1 htlt).2]
        exact hvne
      · rw [hqgrid, hrest j hjb hjne]
        exact hba.2.2 j hj hjb
    have hdop : d.opposite ≠ Direction.none := by
      cases d <;> first | exact absurd rfl hd | (intro hc; cases hc)
    obtain ⟨hblock2, hfree2⟩ :=
      moveEmpty_char q (tgtIdx p.width bi d) hqlen2 hqba d.opposite hdop
    have hb2 : ¬ blockedAt q.width q.height (tgtIdx p.width bi d)
        d.opposite := by
      rw [hqw, hqh]; exact hrev
    obtain ⟨hmv2, htlt2, htne2⟩ := hfree2 hb2
    have hti2 : tgtIdx q.width (tgtIdx p.width bi d) d.opposite = bi := by
      rw [hqw]; exact hrt
    refine ⟨_, hmv2, ?_⟩
    rw [hti2]
    obtain ⟨hlen3, hmid3, hrest3⟩ :=
      set_swap_getD q.grid (tgtIdx p.width bi d) bi (fun e => htne e.symm)
    apply eq_of_getD
    · rw [hlen3, hqlen]
    · intro j hj
      rw [hlen3, hqlen] at hj
      by_cases hjb : j = bi
      · subst hjb
        rw [(hmid3 (hqlen ▸ htlt) (hqlen ▸ hba.1)).1]
        exact hba.2.1.symm
      · by_cases hjt : j = tgtIdx p.width bi d
        · subst hjt
          rw [(hmid3 (hqlen ▸ htlt) (hqlen ▸ hba.1)).2]
          rw [hqgrid, (hmid hba.1 htlt).2]
        · rw [hrest3 j (fun e => hjt e) hjb, hqgrid, hrest j hjb hjt]

/-- C7: applying a legal move and then its opposite direction succeeds and
restores the original grid (for states with a unique blank cell). -/
theorem c7_move_then_inverse (p : Puzzle) (bi : Nat)
    (hlen : p.grid.length = p.width * p.height)
    (hba : BlankAt p.grid bi) (d : Direction) (q : Puzzle)
    (h : moveEmpty p d = PanicOr.ok (Option.some q)) :
    ∃ q2, moveEmpty q d.opposite = PanicOr.ok (Option.some q2) ∧
      q2.grid = p.grid :=
  moveEmpty_inverse p bi hlen hba d q h

/-- C7 witness at a concrete state and move. -/
theorem c7_witness :
    ∃ q2, moveEmpty c7q Direction.up.opposite = PanicOr.ok (Option.some q2) ∧
      q2.grid = c7start.grid :=
  c7_move_then_inverse c7start 2 (by decide)
    ⟨by decide, by decide, by decide⟩ Direction.up c7q (by decide)

/-! ### Claim C6 -/

theorem heuristicOf_withMetric (m : Metric) (mo : Option Metric) (q : Puzzle) :
    heuristicOf m (withMetric mo q) = heuristicOf m q := by
  cases mo with
  | none => rfl
  | some m2 => cases m2 <;> cases m <;> rfl

theorem pathDepth_withMetric (mo : Option Metric) (q : Puzzle) :
    pathDepth (withMetric mo q) = pathDepth q := by
  rw [pathDepth, pathDepth, withMetric_path]

/-- C6 counterexample: a successor generated by the A* neighbour generation
from a parent whose 20-slot history is full has rank
`parent depth + heuristic`, not `(parent depth + 1) + heuristic`. -/
theorem c6_counterexample :
    pathDepth c6parent = 20 ∧
    getNeighbourStates c6parent priorityOrder (Option.some Metric.hamming) =
      PanicOr.ok [c6upChild, c6rightChild] ∧
    c6upChild.metric = 22 ∧
    (pathDepth c6parent + 1) + heuristicOf Metric.hamming c6upChild = 23 ∧
    c6upChild.metric ≠
      (pathDepth c6parent + 1) + heuristicOf Metric.hamming c6upChild := by
  refine ⟨by decide, by decide, by decide, by decide, by decide⟩

/-- C6 (amended): every A*-generated successor's rank is set to its own
recorded path depth plus the selected heuristic of its grid; the recorded
depth is `parent depth + 1` whenever the parent's 20-slot history has a free
slot, and stays at the parent depth when the history is full. -/
theorem c6_rank_formula (p : Puzzle) (ord : List Direction) (m : Metric)
    (l : List Puzzle) (s : Puzzle) (hlen : p.path.length = maxDepthConst)
    (h : getNeighbourStates p ord (Option.some m) = PanicOr.ok l)
    (hs : s ∈ l) :
    s.metric = pathDepth s + heuristicOf m s ∧
      (pathDepth p < maxDepthConst → pathDepth s = pathDepth p + 1) ∧
      (pathDepth p = maxDepthConst → pathDepth s = pathDepth p) := by
  obtain ⟨d, q, hd, hskip, hmv, hseq⟩ :=
    neighboursGo_mem p (Option.some m) ord l h s hs
  subst hseq
  obtain ⟨hpath, hw2, hh2, hgl, hmet, hdne⟩ := moveEmpty_some_fields p d q hmv
  refine ⟨?_, ?_, ?_⟩
  · rw [withMetric_some_metric, pathDepth_withMetric, heuristicOf_withMetric]
  · intro hlt
    rw [pathDepth_withMetric]
    show q.path.countP (fun e => e != Direction.none) = pathDepth p + 1
    rw [hpath]
    exact countP_pushPath_of_lt p.path d hdne (by rw [hlen]; exact hlt)
  · intro heq
    rw [pathDepth_withMetric]
    show q.path.countP (fun e => e != Direction.none) = pathDepth p
    rw [hpath, pushPath_of_full p.path (by rw [hlen]; exact heq) d]
    rfl

/-- C6 witness at a concrete parent with room in its history. -/
theorem c6_witness :
    c2leftChild.metric =
        pathDepth c2leftChild + heuristicOf Metric.hamming c2leftChild ∧
      (pathDepth c2parent < maxDepthConst →
        pathDepth c2leftChild = pathDepth c2parent + 1) ∧
      (pathDepth c2parent = maxDepthConst →
        pathDepth c2leftChild = pathDepth c2parent) :=
  c6_rank_formula c2parent priorityOrder Metric.hamming [c2leftChild]
    c2leftChild (by decide) (by decide) (by decide)

/-! ### Claim C3 -/

theorem neighboursGo_panic (p : Puzzle) (m : Option Metric)
    (ords : List Direction) (hep : emptyPosition? p = Option.none)
    (hlast : lastMove p = Direction.none)
    (hord : ∃ d ∈ ords, d ≠ Direction.none) :
    neighboursGo p m ords = PanicOr.panic := by
  induction ords with
  | nil => simp at hord
  | cons d rest ih =>
    unfold neighboursGo
    by_cases hd : d = Direction.none
    · subst hd
      rw [if_pos (by rw [hlast]; rfl)]
      apply ih
      obtain ⟨d2, hd2, hd2n⟩ := hord
      rcases List.mem_cons.mp hd2 with rfl | hmem
      · exact absurd rfl hd2n
      · exact ⟨d2, hmem, hd2n⟩
    · have hop : d.opposite ≠ Direction.none := by
        cases d <;> first | exact absurd rfl hd | (intro hc; cases hc)
      rw [if_neg (by rw [hlast]; simpa using hop)]
      rw [show moveEmpty p d = PanicOr.panic by
        cases d <;> simp [moveEmpty, hep]]

/-- C3 counterexample: a solve call on a grid with no blank is not rejected
by any validation — under every strategy the search panics inside move
generation (the `empty_position` panic) on the very first expansion. -/
theorem c3_counterexample :
    c3noBlank.grid.count 0 = 0 ∧
    solve c3noBlank (Strategy.bfs [Direction.up, Direction.down,
      Direction.left, Direction.right]) 5 = RunOut.panic ∧
    solve c3noBlank (Strategy.dfs [Direction.up, Direction.down,
      Direction.left, Direction.right]) 5 = RunOut.panic ∧
    solve c3noBlank (Strategy.astar Metric.hamming) 5 = RunOut.panic := by
  refine ⟨by decide, by decide, by decide, by decide⟩

/-- C3 (amended): no blank-cell validation exists.  For every initial state
whose grid contains no zero (and an order naming at least one real
direction, as every configured order does), each solve driver reaches
`empty_position` through move generation on its first expansion and
panics — the failure is discovered mid-search, not rejected up front. -/
theorem c3_no_validation_panics (p : Puzzle) (ord : List Direction)
    (m : Metric) (fuel : Nat) (hw : 0 < p.width) (hh : 0 < p.height)
    (hlen : p.grid.length = p.width * p.height)
    (hnoz : p.grid.count 0 = 0)
    (hpath : p.path = List.replicate maxDepthConst Direction.none)
    (hord : ∃ d ∈ ord, d ≠ Direction.none) :
    solveBasic p ord false (fuel + 1) = RunOut.panic ∧
    solveBasic p ord true (fuel + 1) = RunOut.panic ∧
    solvePriority p m (fuel + 1) = RunOut.panic := by
  have hnotmem : (0 : Nat) ∉ p.grid := List.count_eq_zero.mp hnoz
  have hlpos : 0 < p.grid.length := by
    rw [hlen]
    exact Nat.mul_pos hw hh
  have hsolved : isSolved p = false := by
    have hmem : p.grid.getD (p.grid.length - 1) 0 ∈ p.grid := by
      rw [List.getD_eq_getElem _ _ (by omega)]
      exact List.getElem_mem _
    have hne : p.grid.getD (p.grid.length - 1) 0 ≠ 0 := by
      intro hc
      rw [hc] at hmem
      exact hnotmem hmem
    unfold isSolved
    rw [if_pos hne]
  have hep : emptyPosition? p = Option.none := by
    rw [emptyPosition?]
    have h9 : p.grid.findIdx? (fun v => v == 0) = Option.none := by
      rw [List.findIdx?_eq_none_iff]
      intro x hx
      have hx0 : x ≠ 0 := fun hc => absurd (hc ▸ hx) hnotmem
      simpa using hx0
    rw [h9]
  have hdep : pathDepth p = 0 := by
    rw [pathDepth, hpath]
    simp
  have hlast : lastMove p = Direction.none := by
    rw [lastMove, if_neg (by omega)]
  have hgns : ∀ (mo : Option Metric) (ords : List Direction),
      (∃ d ∈ ords, d ≠ Direction.none) →
      neighboursGo p mo ords = PanicOr.panic :=
    fun mo ords ho => neighboursGo_panic p mo ords hep hlast ho
  have hd19 : (p.path.getD (maxDepthConst - 1) Direction.none
      != Direction.none) = false := by
    rw [hpath]
    simp [maxDepthConst]
  refine ⟨?_, ?_, ?_⟩
  · have hg := hgns Option.none ord hord
    simp [solveBasic, solveBasicLoop, popQueue, hsolved,
      getNeighbourStates, hg]
  · have hordr : ∃ d ∈ ord.reverse, d ≠ Direction.none := by
      obtain ⟨d2, hd2, hd2n⟩ := hord
      exact ⟨d2, List.mem_reverse.mpr hd2, hd2n⟩
    have hg := hgns Option.none ord.reverse hordr
    simp [solveBasic, solveBasicLoop, popQueue, hsolved, hpath,
      maxDepthConst, getNeighbourStates, hg]
  · have hordp : ∃ d ∈ priorityOrder, d ≠ Direction.none :=
      ⟨Direction.left, by simp [priorityOrder], by intro hc; cases hc⟩
    have hg := hgns (Option.some m) priorityOrder hordp
    simp [solvePriority, solvePriorityLoop, heapPop, hsolved,
      getNeighbourStates, hg]

/-- C3 witness at a concrete blank-free grid. -/
theorem c3_witness :
    solveBasic c3noBlank [Direction.up, Direction.up, Direction.up,
      Direction.up] false 3 = RunOut.panic ∧
    solveBasic c3noBlank [Direction.up, Direction.up, Direction.up,
      Direction.up] true 3 = RunOut.panic ∧
    solvePriority c3noBlank Metric.manhattan 3 = RunOut.panic :=
  c3_no_validation_panics c3noBlank [Direction.up, Direction.up,
    Direction.up, Direction.up] Metric.manhattan 2 (by decide) (by decide)
    (by decide) (by decide) (by decide)
    ⟨Direction.up, by simp, by intro hc; cases hc⟩

/-! ### Registry lemmas and claim C5 -/

theorem storedAt_cons (s : Puzzle) (v : List Puzzle) (g : List Nat) :
    storedAt (s :: v) g =
      if (s.grid == g) = true then Option.some s else storedAt v g := by
  rw [storedAt, List.find?]
  split <;> simp_all [storedAt]

theorem storedAt_some_grid (v : List Puzzle) (g : List Nat) (s : Puzzle)
    (h : storedAt v g = Option.some s) : s.grid = g := by
  have := List.find?_some h
  simpa using this

theorem storedAt_some_mem (v : List Puzzle) (g : List Nat) (s : Puzzle)
    (h : storedAt v g = Option.some s) : s ∈ v :=
  List.mem_of_find?_eq_some h

theorem storedAt_mem_ne_none (v : List Puzzle) (t : Puzzle) (ht : t ∈ v) :
    storedAt v t.grid ≠ Option.none := by
  intro hc
  have := List.find?_eq_none.mp hc t ht
  simp at this

theorem storedAt_replace_self (v : List Puzzle) (n : Puzzle) :
    storedAt (visitedReplace v n) n.grid = Option.some n := by
  induction v with
  | nil => simp [visitedReplace, storedAt, List.find?]
  | cons s rest ih =>
    rw [visitedReplace]
    split
    · rw [storedAt_cons]
      simp
    · rw [storedAt_cons]
      next hne =>
        rw [if_neg (by simpa using fun hc => hne (by simp [hc]))]
        exact ih

theorem storedAt_replace_ne (v : List Puzzle) (n : Puzzle) (g : List Nat)
    (hne : n.grid ≠ g) :
    storedAt (visitedReplace v n) g = storedAt v g := by
  induction v with
  | nil =>
    rw [visitedReplace, storedAt_cons, if_neg (by simpa using hne)]
  | cons s rest ih =>
    rw [visitedReplace]
    split
    · next heq =>
      have hsg : s.grid = n.grid := by simpa using heq
      rw [storedAt_cons, storedAt_cons, if_neg (by simpa using hne),
        if_neg (by rw [hsg]; simpa using hne)]
    · rw [storedAt_cons, storedAt_cons]
      split
      · rfl
      · exact ih

theorem mem_visitedReplace (v : List Puzzle) (n t : Puzzle)
    (ht : t ∈ visitedReplace v n) : t ∈ v ∨ t = n := by
  induction v with
  | nil => simp [visitedReplace] at ht; exact Or.inr ht
  | cons s rest ih =>
    rw [visitedReplace] at ht
    split at ht
    · rcases List.mem_cons.mp ht with rfl | hmem
      · exact Or.inr rfl
      · exact Or.inl (List.mem_cons_of_mem _ hmem)
    · rcases List.mem_cons.mp ht with rfl | hmem
      · exact Or.inl (List.mem_cons_self _ _)
      · rcases ih hmem with h1 | h1
        · exact Or.inl (List.mem_cons_of_mem _ h1)
        · exact Or.inr h1

theorem distinct_visitedReplace (v : List Puzzle) (n : Puzzle)
    (h : DistinctGrids v) : DistinctGrids (visitedReplace v n) := by
  induction v with
  | nil => simp [visitedReplace, DistinctGrids]
  | cons s rest ih =>
    rw [visitedReplace]
    rw [DistinctGrids, List.map_cons, List.nodup_cons] at h
    split
    · next heq =>
      have hsg : s.grid = n.grid := by simpa using heq
      rw [DistinctGrids, List.map_cons, List.nodup_cons]
      exact ⟨by rw [hsg.symm]; exact h.1, h.2⟩
    · next hne =>
      have hsn : s.grid ≠ n.grid := by simpa using fun hc => hne (by simp [hc])
      rw [DistinctGrids, List.map_cons, List.nodup_cons]
      refine ⟨?_, ih h.2⟩
      intro hc
      obtain ⟨t, htm, hte⟩ := List.mem_map.mp hc
      rcases mem_visitedReplace rest n t htm with h1 | h1
      · exact h.1 (List.mem_map.mpr ⟨t, h1, hte⟩)
      · subst h1
        exact hsn hte.symm

theorem visitedGet_eq_storedAt (v : List Puzzle) (n : Puzzle) :
    visitedGet v n = storedAt v n.grid := rfl

theorem upsertStep_spec (v : List Puzzle) (n : Puzzle)
    (hdist : DistinctGrids v) :
    DistinctGrids (upsertStep v n).1 ∧
    (∀ g, g ≠ n.grid →
      storedAt (upsertStep v n).1 g = storedAt v g) ∧
    (∃ s1, storedAt (upsertStep v n).1 n.grid = Option.some s1 ∧
      pathDepth s1 ≤ pathDepth n ∧
      (∀ prev, storedAt v n.grid = Option.some prev →
        pathDepth s1 ≤ pathDepth prev)) ∧
    (∀ t ∈ (upsertStep v n).1, t ∈ v ∨ t = n) := by
  cases hget : storedAt v n.grid with
  | none =>
    have hstep1 : (upsertStep v n).1 = n :: v := by
      rw [upsertStep, visitedGet_eq_storedAt, hget]
    rw [hstep1]
    refine ⟨?_, ?_, ⟨n, ?_, Nat.le_refl _, ?_⟩, ?_⟩
    · rw [DistinctGrids, List.map_cons, List.nodup_cons]
      refine ⟨?_, hdist⟩
      intro hc
      obtain ⟨t, htm, hte⟩ := List.mem_map.mp hc
      exact storedAt_mem_ne_none v t htm (by rw [hte]; exact hget)
    · intro g hg
      rw [storedAt_cons, if_neg (by simpa using fun hc => hg hc.symm)]
    · rw [storedAt_cons, if_pos (by simp)]
    · intro prev hprev
      exact Option.noConfusion hprev
    · intro t ht
      rcases List.mem_cons.mp ht with rfl | hmem
      · exact Or.inr rfl
      · exact Or.inl hmem
  | some prev =>
    by_cases hlt : pathDepth n < pathDepth prev
    · have hstep1 : (upsertStep v n).1 = visitedReplace v n := by
        rw [upsertStep, visitedGet_eq_storedAt, hget]
        show (if pathDepth n < pathDepth prev then (visitedReplace v n, true)
          else (v, false)).1 = visitedReplace v n
        rw [if_pos hlt]
      rw [hstep1]
      refine ⟨distinct_visitedReplace v n hdist, ?_,
        ⟨n, storedAt_replace_self v n, Nat.le_refl _, ?_⟩, ?_⟩
      · intro g hg
        exact storedAt_replace_ne v n g (fun e => hg e.symm)
      · intro prev2 hprev2
        injection hprev2 with h2
        subst h2
        exact Nat.le_of_lt hlt
      · intro t ht
        exact mem_visitedReplace v n t ht
    · have hstep1 : (upsertStep v n).1 = v := by
        rw [upsertStep, visitedGet_eq_storedAt, hget]
        show (if pathDepth n < pathDepth prev then (visitedReplace v n, true)
          else (v, false)).1 = v
        rw [if_neg hlt]
      rw [hstep1]
      refine ⟨hdist, fun g hg => rfl,
        ⟨prev, hget, Nat.le_of_not_lt hlt, ?_⟩, fun t ht => Or.inl ht⟩
      intro prev2 hprev2
      injection hprev2 with h2
      subst h2
      exact Nat.le_refl _

theorem upsertAll_spec (cs : List Puzzle) (v0 : List Puzzle)
    (hdist : DistinctGrids v0) :
    DistinctGrids (upsertAll v0 cs) ∧
    (∀ g s, storedAt (upsertAll v0 cs) g = Option.some s →
      s.grid = g ∧
      (∀ prev, storedAt v0 g = Option.some prev →
        pathDepth s ≤ pathDepth prev) ∧
      (∀ c ∈ cs, c.grid = g → pathDepth s ≤ pathDepth c) ∧
      (s ∈ v0 ∨ s ∈ cs)) ∧
    (∀ t ∈ v0, storedAt (upsertAll v0 cs) t.grid ≠ Option.none) ∧
    (∀ c ∈ cs, storedAt (upsertAll v0 cs) c.grid ≠ Option.none) := by
  induction cs generalizing v0 with
  | nil =>
    refine ⟨hdist, ?_, ?_, by simp⟩
    · intro g s h
      refine ⟨storedAt_some_grid _ _ _ h, ?_, by simp, Or.inl (storedAt_some_mem _ _ _ h)⟩
      intro prev hprev
      rw [upsertAll, List.foldl_nil] at h
      rw [h] at hprev
      injection hprev with h2
      subst h2
      exact Nat.le_refl _
    · intro t ht
      rw [upsertAll, List.foldl_nil]
      exact storedAt_mem_ne_none v0 t ht
  | cons c cs ih =>
    obtain ⟨hd1, hloc, ⟨s1, hs1, hs1le, hs1min⟩, hsub⟩ := upsertStep_spec v0 c hdist
    have hall : upsertAll v0 (c :: cs) = upsertAll (upsertStep v0 c).1 cs := by
      rw [upsertAll, upsertAll, List.foldl_cons]
    obtain ⟨ihd, ihb, ihp, ihc⟩ := ih (upsertStep v0 c).1 hd1
    rw [hall]
    refine ⟨ihd, ?_, ?_, ?_⟩
    · intro g s h
      obtain ⟨hsg, hmin1, hmincs, hmem⟩ := ihb g s h
      refine ⟨hsg, ?_, ?_, ?_⟩
      · intro prev hprev
        by_cases hgc : g = c.grid
        · subst hgc
          have h5 := hmin1 s1 hs1
          exact Nat.le_trans h5 (hs1min prev hprev)
        · have h6 : storedAt (upsertStep v0 c).1 g = storedAt v0 g :=
            hloc g hgc
          exact hmin1 prev (by rw [h6]; exact hprev)
      · intro c2 hc2 hc2g
        rcases List.mem_cons.mp hc2 with rfl | hmem2
        · subst hc2g
          exact Nat.le_trans (hmin1 s1 hs1) hs1le
        · exact hmincs c2 hmem2 hc2g
      · rcases hmem with h1 | h1
        · rcases hsub s h1 with h2 | h2
          · exact Or.inl h2
          · exact Or.inr (h2 ▸ List.mem_cons_self c cs)
        · exact Or.inr (List.mem_cons_of_mem _ h1)
    · intro t ht
      by_cases hgc : t.grid = c.grid
      · rw [hgc]
        have hm1 := storedAt_some_mem _ _ _ hs1
        have := ihp s1 hm1
        rwa [storedAt_some_grid _ _ _ hs1] at this
      · have h6 : storedAt (upsertStep v0 c).1 t.grid = storedAt v0 t.grid :=
          hloc t.grid hgc
        cases hv0 : storedAt v0 t.grid with
        | none => exact absurd hv0 (storedAt_mem_ne_none v0 t ht)
        | some u =>
          have hm1 : u ∈ (upsertStep v0 c).1 :=
            storedAt_some_mem _ _ _ (by rw [h6]; exact hv0)
          have h7 := ihp u hm1
          rwa [storedAt_some_grid _ _ _ hv0] at h7
    · intro c2 hc2
      rcases List.mem_cons.mp hc2 with rfl | hmem2
      · have hm1 := storedAt_some_mem _ _ _ hs1
        have h7 := ihp s1 hm1
        rwa [storedAt_some_grid _ _ _ hs1] at h7
      · exact ihc c2 hmem2

/-- C5: across any sequence of registry upserts starting from a
distinct-grid registry, the registry maps each distinct grid to a stored
state of minimal history length among everything upserted with that grid
(the previously stored entry and all candidates), every upserted grid stays
present, and each single upsert behaves as: strictly shorter candidate →
replace and re-admit; equal-or-longer candidate → discard with the registry
unchanged; absent grid → insert and admit. -/
theorem c5_registry_shortest (v0 : List Puzzle) (cs : List Puzzle)
    (hdist : DistinctGrids v0) :
    (DistinctGrids (upsertAll v0 cs) ∧
      (∀ g s, storedAt (upsertAll v0 cs) g = Option.some s →
        s.grid = g ∧
        (∀ prev, storedAt v0 g = Option.some prev →
          pathDepth s ≤ pathDepth prev) ∧
        (∀ c ∈ cs, c.grid = g → pathDepth s ≤ pathDepth c) ∧
        (s ∈ v0 ∨ s ∈ cs)) ∧
      (∀ t ∈ v0, storedAt (upsertAll v0 cs) t.grid ≠ Option.none) ∧
      (∀ c ∈ cs, storedAt (upsertAll v0 cs) c.grid ≠ Option.none)) ∧
    (∀ (v : List Puzzle) (n prev : Puzzle),
      visitedGet v n = Option.some prev →
      (pathDepth n < pathDepth prev →
        upsertStep v n = (visitedReplace v n, true)) ∧
      (pathDepth prev ≤ pathDepth n → upsertStep v n = (v, false))) ∧
    (∀ (v : List Puzzle) (n : Puzzle),
      visitedGet v n = Option.none → upsertStep v n = (n :: v, true)) := by
  refine ⟨upsertAll_spec cs v0 hdist, ?_, ?_⟩
  · intro v n prev hget
    constructor
    · intro hlt
      rw [upsertStep, hget]
      show (if pathDepth n < pathDepth prev then (visitedReplace v n, true)
        else (v, false)) = (visitedReplace v n, true)
      rw [if_pos hlt]
    · intro hle
      rw [upsertStep, hget]
      show (if pathDepth n < pathDepth prev then (visitedReplace v n, true)
        else (v, false)) = (v, false)
      rw [if_neg (Nat.not_lt.mpr hle)]
  · intro v n hget
    rw [upsertStep, hget]

/-- C5 witness at a concrete registry and candidate sequence. -/
theorem c5_witness :
    (DistinctGrids (upsertAll [c10a] [c10b, c6parent]) ∧
      (∀ g s, storedAt (upsertAll [c10a] [c10b, c6parent]) g =
          Option.some s →
        s.grid = g ∧
        (∀ prev, storedAt [c10a] g = Option.some prev →
          pathDepth s ≤ pathDepth prev) ∧
        (∀ c ∈ [c10b, c6parent], c.grid = g → pathDepth s ≤ pathDepth c) ∧
        (s ∈ [c10a] ∨ s ∈ [c10b, c6parent])) ∧
      (∀ t ∈ [c10a], storedAt (upsertAll [c10a] [c10b, c6parent]) t.grid ≠
        Option.none) ∧
      (∀ c ∈ [c10b, c6parent],
        storedAt (upsertAll [c10a] [c10b, c6parent]) c.grid ≠
          Option.none)) ∧
    (∀ (v : List Puzzle) (n prev : Puzzle),
      visitedGet v n = Option.some prev →
      (pathDepth n < pathDepth prev →
        upsertStep v n = (visitedReplace v n, true)) ∧
      (pathDepth prev ≤ pathDepth n → upsertStep v n = (v, false))) ∧
    (∀ (v : List Puzzle) (n : Puzzle),
      visitedGet v n = Option.none → upsertStep v n = (n :: v, true)) :=
  c5_registry_shortest [c10a] [c10b, c6parent] (by unfold DistinctGrids; decide)

/-! ### Claim C9 -/

theorem fillLine_no_corrupt (w y : Nat) (grid : List Nat) (x : Nat)
    (ts : List String) (h : ∀ t ∈ ts, parseNat? t ≠ Option.none) :
    fillLine w y grid x ts ≠ FillOut.corrupt := by
  induction ts generalizing grid x with
  | nil => intro hc; cases hc
  | cons t ts2 ih =>
    cases hn : parseNat? t with
    | none => exact absurd hn (h t (List.mem_cons_self t ts2))
    | some v =>
      simp only [fillLine, hn]
      split
      · exact ih _ _ (fun t2 ht2 => h t2 (List.mem_cons_of_mem _ ht2))
      · intro hc; cases hc

theorem fillLines_no_corrupt (w : Nat) (grid : List Nat) (y : Nat)
    (ls : List String)
    (h : ∀ line ∈ ls, ∀ t ∈ tokensOf line, parseNat? t ≠ Option.none) :
    fillLines w grid y ls ≠ FillOut.corrupt := by
  induction ls generalizing grid y with
  | nil => intro hc; cases hc
  | cons line ls2 ih =>
    rw [fillLines]
    cases hfl : fillLine w y grid 0 (tokensOf line) with
    | corrupt =>
      exact absurd hfl
        (fillLine_no_corrupt w y grid 0 (tokensOf line)
          (h line (List.mem_cons_self line ls2)))
    | panic => intro hc; cases hc
    | ok g2 => exact ih g2 (y + 1) (fun l2 hl2 => h l2 (List.mem_cons_of_mem _ hl2))

/-- C9: with a well-formed first line, overflowing cell tokens make the
loader panic with an out-of-bounds grid write instead of returning the
corrupt-input classification ("1 1" followed by two grid lines indexes past
the 1×1 grid); when the dimension tokens parse and every cell token parses,
no `FileReadError` outcome is produced at all (the result is a puzzle or
that panic); the empty file is the empty-file error; and a well-formed file
loads.  (`NotFound` arises only from the `fs::read_to_string` I/O failure,
before any content is examined.) -/
theorem c9_overflow_panics :
    fromFile [r"1 1", r"1", r"2"] = LoadOut.panic ∧
    (∀ (first : String) (rest : List String) (t1 t2 : String) (hn wn : Nat),
      (tokensOf first).head? = Option.some t1 →
      parseNat? t1 = Option.some hn →
      ((tokensOf first).drop 1).head? = Option.some t2 →
      parseNat? t2 = Option.some wn →
      (∀ line ∈ rest, ∀ t ∈ tokensOf line, parseNat? t ≠ Option.none) →
      fromFile (first :: rest) ≠ LoadOut.errCorrupt ∧
      fromFile (first :: rest) ≠ LoadOut.errEmpty) ∧
    fromFile [] = LoadOut.errEmpty ∧
    fromFile [r"2 2", r"1 2", r"3 0"] =
      LoadOut.ok (mkInitial [1, 2, 3, 0] 2 2) := by
  refine ⟨by decide, ?_, rfl, by decide⟩
  intro first rest t1 t2 hn wn h1 h2 h3 h4 h5
  have hred : fromFile (first :: rest) =
      match fillLines wn (List.replicate (wn * hn) 0) 0 rest with
      | FillOut.ok grid =>
        LoadOut.ok
          { grid := grid,
            path := List.replicate maxDepthConst Direction.none,
            width := wn, height := hn, metric := 0 }
      | FillOut.corrupt => LoadOut.errCorrupt
      | FillOut.panic => LoadOut.panic := by
    simp only [fromFile, h1, h2, h3, h4]
  rw [hred]
  cases hfl : fillLines wn (List.replicate (wn * hn) 0) 0 rest with
  | corrupt => exact absurd hfl (fillLines_no_corrupt _ _ _ rest h5)
  | panic => exact ⟨fun hc => LoadOut.noConfusion hc, fun hc => LoadOut.noConfusion hc⟩
  | ok g2 => exact ⟨fun hc => LoadOut.noConfusion hc, fun hc => LoadOut.noConfusion hc⟩

/-- C9 witness at a concrete well-formed input. -/
theorem c9_witness :
    fromFile [r"2 3", r"1 2 3", r"4 5 0"] ≠ LoadOut.errCorrupt ∧
    fromFile [r"2 3", r"1 2 3", r"4 5 0"] ≠ LoadOut.errEmpty :=
  c9_overflow_panics.2.1 r"2 3" [r"1 2 3", r"4 5 0"] r"2" r"3" 2 3
    (by decide) (by decide) (by decide) (by decide) (by decide)

/-! ### Loop step equations -/

theorem solveBasicLoop_succ_none (ord : List Direction) (isDfs : Bool)
    (fuel : Nat) (q v : List Puzzle) (md pc : Nat)
    (hpop : popQueue isDfs q = Option.none) :
    solveBasicLoop ord isDfs (fuel + 1) q v md pc =
      RunOut.done
        { path := Option.none, visitedStates := v.length,
          processedStates := pc, maxDepth := md } := by
  rw [solveBasicLoop, hpop]

theorem solveBasicLoop_succ_some (ord : List Direction) (isDfs : Bool)
    (fuel : Nat) (q v : List Puzzle) (md pc : Nat) (current : Puzzle)
    (rest : List Puzzle)
    (hpop : popQueue isDfs q = Option.some (current, rest)) :
    solveBasicLoop ord isDfs (fuel + 1) q v md pc =
      (if isSolved current then
        RunOut.done
          { path := Option.some (pathToVec current),
            visitedStates := v.length, processedStates := pc + 1,
            maxDepth :=
              (if md < pathDepth current then pathDepth current else md) }
      else if isDfs && (current.path.getD (maxDepthConst - 1) Direction.none
          != Direction.none) then
        solveBasicLoop ord isDfs fuel rest v
          (if md < pathDepth current then pathDepth current else md) (pc + 1)
      else
        match getNeighbourStates current ord Option.none with
        | PanicOr.panic => RunOut.panic
        | PanicOr.ok ns =>
          solveBasicLoop ord isDfs fuel
            (processNeighbours rest v ns).1 (processNeighbours rest v ns).2
            (if md < pathDepth current then pathDepth current else md)
            (pc + 1)) := by
  rw [solveBasicLoop, hpop]

theorem solvePriorityLoop_succ_none (m : Metric) (fuel : Nat)
    (q v : List Puzzle) (md pc : Nat)
    (hpop : heapPop q = Option.none) :
    solvePriorityLoop m (fuel + 1) q v md pc =
      RunOut.done
        { path := Option.none, visitedStates := v.length,
          processedStates := pc, maxDepth := md } := by
  rw [solvePriorityLoop, hpop]

theorem solvePriorityLoop_succ_some (m : Metric) (fuel : Nat)
    (q v : List Puzzle) (md pc : Nat) (current : Puzzle)
    (rest : List Puzzle)
    (hpop : heapPop q = Option.some (current, rest)) :
    solvePriorityLoop m (fuel + 1) q v md pc =
      (if isSolved current then
        RunOut.done
          { path := Option.some (pathToVec current),
            visitedStates := v.length, processedStates := pc + 1,
            maxDepth :=
              (if md < pathDepth current then pathDepth current else md) }
      else
        match getNeighbourStates current priorityOrder (Option.some m) with
        | PanicOr.panic => RunOut.panic
        | PanicOr.ok ns =>
          solvePriorityLoop m fuel
            (processNeighbours rest v ns).1 (processNeighbours rest v ns).2
            (if md < pathDepth current then pathDepth current else md)
            (pc + 1)) := by
  rw [solvePriorityLoop, hpop]

/-! ### Claim C8 -/

theorem popQueue_mem (isDfs : Bool) (q : List Puzzle) (c : Puzzle)
    (rest : List Puzzle) (h : popQueue isDfs q = Option.some (c, rest)) :
    c ∈ q ∧ ∀ s ∈ rest, s ∈ q := by
  unfold popQueue at h
  cases isDfs with
  | true =>
    rw [if_pos rfl] at h
    cases hl : q.getLast? with
    | none => rw [hl] at h; cases h
    | some last =>
      rw [hl] at h
      injection h with h2
      injection h2 with h3 h4
      subst h3
      subst h4
      exact ⟨List.mem_of_getLast?_eq_some hl,
        fun s hs => List.dropLast_subset q hs⟩
  | false =>
    rw [if_neg (by simp)] at h
    cases q with
    | nil => cases h
    | cons a q2 =>
      injection h with h2
      injection h2 with h3 h4
      subst h3
      subst h4
      exact ⟨List.mem_cons_self _ _, fun s hs => List.mem_cons_of_mem _ hs⟩

theorem heapPop_rest_mem (q : List Puzzle) (c : Puzzle)
    (rest : List Puzzle) (h : heapPop q = Option.some (c, rest)) :
    ∀ s ∈ rest, s ∈ q := by
  induction q generalizing c rest with
  | nil => cases h
  | cons a q2 ih =>
    cases hq : heapPop q2 with
    | none =>
      have hnil : q2 = [] := (heapPop_eq_none q2).mp hq
      subst hnil
      simp only [heapPop] at h
      injection h with h2
      injection h2 with h3 h4
      subst h4
      intro s hs
      cases hs
    | some mr =>
      obtain ⟨m, r2⟩ := mr
      simp only [heapPop, hq] at h
      split at h
      · injection h with h2
        injection h2 with h3 h4
        subst h4
        intro s hs
        exact List.mem_cons_of_mem _ hs
      · injection h with h2
        injection h2 with h3 h4
        subst h4
        intro s hs
        rcases List.mem_cons.mp hs with rfl | hs2
        · exact List.mem_cons_self _ _
        · exact List.mem_cons_of_mem _ (ih m r2 hq s hs2)

theorem neighboursGo_path_length (p : Puzzle) (m : Option Metric)
    (ords : List Direction) (l : List Puzzle)
    (h : neighboursGo p m ords = PanicOr.ok l) :
    ∀ s ∈ l, s.path.length = p.path.length := by
  intro s hs
  obtain ⟨d, q, hd, hskip, hmv, hseq⟩ := neighboursGo_mem p m ords l h s hs
  subst hseq
  have hf := moveEmpty_some_fields p d q hmv
  rw [show (withMetric m q).path = q.path from withMetric_path m q, hf.1,
    pushPath_length]

theorem processNeighbours_mem (q v : List Puzzle) (ns : List Puzzle)
    (s : Puzzle) (hs : s ∈ (processNeighbours q v ns).1) :
    s ∈ q ∨ s ∈ ns := by
  induction ns generalizing q v with
  | nil => exact Or.inl hs
  | cons n ns2 ih =>
    rw [processNeighbours, List.foldl_cons] at hs
    have hs2 := ih _ _ hs
    rcases hs2 with h1 | h1
    · by_cases hadm : (upsertStep v n).2 = true
      · rw [if_pos hadm] at h1
        rcases List.mem_append.mp h1 with h2 | h2
        · exact Or.inl h2
        · exact Or.inr (by rw [List.mem_singleton.mp h2]; exact List.mem_cons_self n ns2)
      · rw [if_neg hadm] at h1
        exact Or.inl h1
    · exact Or.inr (List.mem_cons_of_mem _ h1)

theorem solveBasicLoop_path_le (ord : List Direction) (isDfs : Bool)
    (n : Nat) (fuel : Nat) :
    ∀ (q v : List Puzzle) (md pc : Nat) (r : SolveResult)
      (pa : List Direction),
      (∀ s ∈ q, s.path.length = n) →
      solveBasicLoop ord isDfs fuel q v md pc = RunOut.done r →
      r.path = Option.some pa → pa.length ≤ n := by
  induction fuel with
  | zero => intro q v md pc r pa hq h hp; cases h
  | succ fuel ih =>
    intro q v md pc r pa hq h hp
    cases hpop : popQueue isDfs q with
    | none =>
      rw [solveBasicLoop_succ_none ord isDfs fuel q v md pc hpop] at h
      injection h with h2
      subst h2
      exact Option.noConfusion hp
    | some crest =>
      obtain ⟨current, rest⟩ := crest
      rw [solveBasicLoop_succ_some ord isDfs fuel q v md pc current rest
        hpop] at h
      obtain ⟨hcm, hrm⟩ := popQueue_mem isDfs q current rest hpop
      by_cases hsv : isSolved current = true
      · rw [if_pos hsv] at h
        injection h with h2
        subst h2
        have h3 : Option.some (pathToVec current) = Option.some pa := hp
        injection h3 with h4
        subst h4
        have h5 : (pathToVec current).length = pathDepth current :=
          length_pathToVec current
        have h6 := pathDepth_le_length current
        rw [h5]
        rw [hq current hcm] at h6
        exact h6
      · rw [if_neg hsv] at h
        by_cases hdfs : (isDfs && (current.path.getD (maxDepthConst - 1)
            Direction.none != Direction.none)) = true
        · rw [if_pos hdfs] at h
          exact ih rest v _ _ r pa (fun s hs => hq s (hrm s hs)) h hp
        · rw [if_neg hdfs] at h
          cases hns : getNeighbourStates current ord Option.none with
          | panic => rw [hns] at h; cases h
          | ok ns =>
            rw [hns] at h
            apply ih _ _ _ _ r pa ?_ h hp
            intro s hs
            rcases processNeighbours_mem rest v ns s hs with h1 | h1
            · exact hq s (hrm s h1)
            · rw [neighboursGo_path_length current Option.none ord ns hns s h1]
              exact hq current hcm

theorem solvePriorityLoop_path_le (m : Metric) (n : Nat) (fuel : Nat) :
    ∀ (q v : List Puzzle) (md pc : Nat) (r : SolveResult)
      (pa : List Direction),
      (∀ s ∈ q, s.path.length = n) →
      solvePriorityLoop m fuel q v md pc = RunOut.done r →
      r.path = Option.some pa → pa.length ≤ n := by
  induction fuel with
  | zero => intro q v md pc r pa hq h hp; cases h
  | succ fuel ih =>
    intro q v md pc r pa hq h hp
    cases hpop : heapPop q with
    | none =>
      rw [solvePriorityLoop_succ_none m fuel q v md pc hpop] at h
      injection h with h2
      subst h2
      exact Option.noConfusion hp
    | some crest =>
      obtain ⟨current, rest⟩ := crest
      rw [solvePriorityLoop_succ_some m fuel q v md pc current rest hpop] at h
      have hcm := (heapPop_min q current rest hpop).1
      have hrm := heapPop_rest_mem q current rest hpop
      by_cases hsv : isSolved current = true
      · rw [if_pos hsv] at h
        injection h with h2
        subst h2
        have h3 : Option.some (pathToVec current) = Option.some pa := hp
        injection h3 with h4
        subst h4
        have h5 : (pathToVec current).length = pathDepth current :=
          length_pathToVec current
        have h6 := pathDepth_le_length current
        rw [h5]
        rw [hq current hcm] at h6
        exact h6
      · rw [if_neg hsv] at h
        cases hns : getNeighbourStates current priorityOrder
            (Option.some m) with
        | panic => rw [hns] at h; cases h
        | ok ns =>
          rw [hns] at h
          apply ih _ _ _ _ r pa ?_ h hp
          intro s hs
          rcases processNeighbours_mem rest v ns s hs with h1 | h1
          · exact hq s (hrm s h1)
          · rw [neighboursGo_path_length current (Option.some m)
              priorityOrder ns hns s h1]
            exact hq current hcm

/-- C8: under every strategy, a returned path is the collection of non-`None`
entries of a 20-slot history array, so its length never exceeds
`MAX_DEPTH = 20`. -/
theorem c8_path_capped (p : Puzzle) (strat : Strategy) (fuel : Nat)
    (r : SolveResult) (pa : List Direction)
    (hlen : p.path.length = maxDepthConst)
    (h : solve p strat fuel = RunOut.done r)
    (hp : r.path = Option.some pa) : pa.length ≤ maxDepthConst := by
  cases strat with
  | bfs ord =>
    exact solveBasicLoop_path_le ord false maxDepthConst fuel [p] [p] 0 0
      r pa (by intro s hs; rw [List.mem_singleton.mp hs]; exact hlen) h hp
  | dfs ord =>
    exact solveBasicLoop_path_le ord.reverse true maxDepthConst fuel [p] [p]
      0 0 r pa (by intro s hs; rw [List.mem_singleton.mp hs]; exact hlen) h hp
  | astar m =>
    exact solvePriorityLoop_path_le m maxDepthConst fuel [p] [p] 0 0
      r pa (by intro s hs; rw [List.mem_singleton.mp hs]; exact hlen) h hp

/-- C8 witness at a concrete one-move puzzle solved by BFS. -/
theorem c8_witness : [Direction.right].length ≤ maxDepthConst :=
  c8_path_capped (mkInitial [1, 2, 0, 3] 2 2)
    (Strategy.bfs [Direction.up, Direction.down, Direction.left,
      Direction.right]) 10
    { path := Option.some [Direction.right], visitedStates := 4,
      processedStates := 3, maxDepth := 1 }
    [Direction.right] (by decide) (by decide) rfl

/-! ### C1: grid-level move lemmas -/

theorem applyMove_none_dir (w h : Nat) (g : List Nat) :
    applyMove w h g Direction.none = Option.none := by
  rw [applyMove]
  cases hep : emptyPosition? (mkInitial g w h) with
  | none => rw [moveEmpty, hep]
  | some yx =>
    obtain ⟨y, x⟩ := yx
    rw [moveEmpty, hep]

theorem applyMove_char (w h : Nat) (g : List Nat) (bi : Nat)
    (hlen : g.length = w * h) (hba : BlankAt g bi) (d : Direction)
    (hd : d ≠ Direction.none) :
    (blockedAt w h bi d → applyMove w h g d = Option.none) ∧
    (¬ blockedAt w h bi d →
      applyMove w h g d =
        Option.some ((g.set bi (g.getD (tgtIdx w bi d) 0)).set
          (tgtIdx w bi d) 0) ∧
      tgtIdx w bi d < g.length ∧ tgtIdx w bi d ≠ bi) := by
  obtain ⟨hblock, hfree⟩ := moveEmpty_char (mkInitial g w h) bi hlen hba d hd
  constructor
  · intro hb
    rw [applyMove, hblock hb]
  · intro hb
    obtain ⟨hmv, ht1, ht2⟩ := hfree hb
    refine ⟨?_, ht1, ht2⟩
    rw [applyMove, hmv]
    rfl

theorem applyMove_of_moveEmpty (p : Puzzle) (bi : Nat)
    (hlen : p.grid.length = p.width * p.height)
    (hba : BlankAt p.grid bi) (d : Direction) (q : Puzzle)
    (h : moveEmpty p d = PanicOr.ok (Option.some q)) :
    applyMove p.width p.height p.grid d = Option.some q.grid := by
  have hd : d ≠ Direction.none := (moveEmpty_some_fields p d q h).2.2.2.2.2
  obtain ⟨hblock, hfree⟩ := moveEmpty_char p bi hlen hba d hd
  by_cases hb : blockedAt p.width p.height bi d
  · rw [hblock hb] at h; cases h
  · obtain ⟨hmv, ht1, ht2⟩ := hfree hb
    rw [hmv] at h
    injection h with h2
    injection h2 with h3
    have heq := ((applyMove_char p.width p.height p.grid bi hlen hba d hd).2
      hb).1
    rw [heq, ← h3]

theorem moveEmpty_of_applyMove (p : Puzzle) (bi : Nat)
    (hlen : p.grid.length = p.width * p.height)
    (hba : BlankAt p.grid bi) (d : Direction) (y : List Nat)
    (h : applyMove p.width p.height p.grid d = Option.some y) :
    ∃ q, moveEmpty p d = PanicOr.ok (Option.some q) ∧ q.grid = y := by
  have hd : d ≠ Direction.none := by
    intro he; subst he
    rw [applyMove_none_dir] at h
    cases h
  obtain ⟨hblock1, hfree1⟩ :=
    applyMove_char p.width p.height p.grid bi hlen hba d hd
  by_cases hb : blockedAt p.width p.height bi d
  · rw [hblock1 hb] at h; cases h
  · obtain ⟨hmv, ht1, ht2⟩ := (moveEmpty_char p bi hlen hba d hd).2 hb
    rw [(hfree1 hb).1] at h
    injection h with h2
    exact ⟨_, hmv, h2⟩

theorem applyMove_preserves (w h : Nat) (g : List Nat) (bi : Nat)
    (hlen : g.length = w * h) (hba : BlankAt g bi) (d : Direction)
    (y : List Nat) (happ : applyMove w h g d = Option.some y) :
    y.length = w * h ∧ BlankAt y (tgtIdx w bi d) ∧
      ∀ x ∈ y, x ∈ g ∨ x = 0 := by
  have hd : d ≠ Direction.none := by
    intro he; subst he
    rw [applyMove_none_dir] at happ
    cases happ
  obtain ⟨hblock, hfree⟩ := applyMove_char w h g bi hlen hba d hd
  by_cases hb : blockedAt w h bi d
  · rw [hblock hb] at happ; cases happ
  · obtain ⟨hmv, ht1, ht2⟩ := hfree hb
    rw [hmv] at happ
    injection happ with h2
    subst h2
    obtain ⟨hlen2, hmid, hrest⟩ := set_swap_getD g bi (tgtIdx w bi d) ht2
    refine ⟨by rw [hlen2, hlen], ⟨by rw [hlen2]; exact ht1,
      (hmid hba.1 ht1).1, ?_⟩, ?_⟩
    · intro j hj hjne
      rw [hlen2] at hj
      by_cases hjb : j = bi
      · subst hjb
        rw [(hmid hba.1 ht1).2]
        exact hba.2.2 _ ht1 ht2
      · rw [hrest j hjb hjne]
        exact hba.2.2 j hj hjb
    · intro x hx
      rcases List.mem_or_eq_of_mem_set hx with hx1 | hx1
      · rcases List.mem_or_eq_of_mem_set hx1 with hx2 | hx2
        · exact Or.inl hx2
        · subst hx2
          left
          rw [List.getD_eq_getElem g 0 ht1]
          exact List.getElem_mem _
      · exact Or.inr hx1

theorem applyMove_undo (w h : Nat) (g : List Nat) (bi : Nat)
    (hlen : g.length = w * h) (hba : BlankAt g bi) (d : Direction)
    (y : List Nat) (happ : applyMove w h g d = Option.some y) :
    applyMove w h y d.opposite = Option.some g := by
  obtain ⟨q, hmv, hqg⟩ :=
    moveEmpty_of_applyMove (mkInitial g w h) bi hlen hba d y happ
  obtain ⟨q2, hmv2, hq2⟩ := moveEmpty_inverse (mkInitial g w h) bi hlen hba d
    q hmv
  have hfields := moveEmpty_some_fields (mkInitial g w h) d q hmv
  have hqw : q.width = w := hfields.2.1
  have hqh : q.height = h := hfields.2.2.1
  have hd : d ≠ Direction.none := hfields.2.2.2.2.2
  have hqlen : q.grid.length = w * h := by
    rw [hfields.2.2.2.1]; exact hlen
  have hbl : bi < w * h := hlen ▸ hba.1
  have hw : 0 < w := by
    rcases Nat.eq_zero_or_pos w with h0 | hp
    · rw [h0] at hbl; simp at hbl
    · exact hp
  obtain ⟨hblock, hfree⟩ := moveEmpty_char (mkInitial g w h) bi hlen hba d hd
  by_cases hb : blockedAt w h bi d
  · rw [hblock hb] at hmv; cases hmv
  · obtain ⟨hmvx, ht1, ht2⟩ := hfree hb
    rw [hmvx] at hmv
    injection hmv with hmva
    injection hmva with hmvb
    have hqba : BlankAt q.grid (tgtIdx w bi d) := by
      have := applyMove_preserves w h g bi hlen hba d y happ
      rw [hqg]
      exact this.2.1
    have := applyMove_of_moveEmpty q (tgtIdx w bi d)
      (by rw [hqlen, hqw, hqh]) hqba d.opposite q2 hmv2
    rw [hqw, hqh, hqg] at this
    rw [this, hq2]
    rfl

/-! ### C1: move-sequence lemmas -/

theorem applyMoves_singleton (w h : Nat) (z : List Nat) (m : Direction) :
    applyMoves w h z [m] = applyMove w h z m := by
  rw [applyMoves]
  cases ha : applyMove w h z m with
  | none => rfl
  | some y => rfl

theorem applyMoves_append (w h : Nat) (l1 : List Direction) :
    ∀ (g : List Nat) (l2 : List Direction),
      applyMoves w h g (l1 ++ l2) =
        match applyMoves w h g l1 with
        | Option.some g1 => applyMoves w h g1 l2
        | Option.none => Option.none := by
  induction l1 with
  | nil => intro g l2; rfl
  | cons d ds ih =>
    intro g l2
    show applyMoves w h g (d :: (ds ++ l2)) = _
    simp only [applyMoves]
    cases happ : applyMove w h g d with
    | none => rfl
    | some g2 => exact ih g2 l2

theorem reach_trans (w h : Nat) (g g1 g2 : List Nat)
    (l1 l2 : List Direction) (h1 : reach w h g l1 g1)
    (h2 : reach w h g1 l2 g2) : reach w h g (l1 ++ l2) g2 := by
  have h1a : applyMoves w h g l1 = Option.some g1 := h1
  have h2a : applyMoves w h g1 l2 = Option.some g2 := h2
  show applyMoves w h g (l1 ++ l2) = Option.some g2
  rw [applyMoves_append, h1a]
  exact h2a

theorem reach_snoc_inv (w h : Nat) (g x : List Nat) (l : List Direction)
    (m : Direction) (hr : reach w h g (l ++ [m]) x) :
    ∃ z, reach w h g l z ∧ applyMove w h z m = Option.some x := by
  have hra : applyMoves w h g (l ++ [m]) = Option.some x := hr
  rw [applyMoves_append] at hra
  cases hz : applyMoves w h g l with
  | none =>
    rw [hz] at hra
    exact Option.noConfusion hra
  | some z =>
    rw [hz] at hra
    have hr2 : applyMove w h z m = Option.some x := by
      rw [← applyMoves_singleton w h z m]
      exact hra
    exact ⟨z, hz, hr2⟩

theorem reach_cons_inv (w h : Nat) (g x : List Nat) (d : Direction)
    (ds : List Direction) (hr : reach w h g (d :: ds) x) :
    ∃ y, applyMove w h g d = Option.some y ∧ reach w h y ds x := by
  have hra : applyMoves w h g (d :: ds) = Option.some x := hr
  rw [applyMoves] at hra
  cases ha : applyMove w h g d with
  | none =>
    rw [ha] at hra
    exact Option.noConfusion hra
  | some y =>
    rw [ha] at hra
    exact ⟨y, rfl, hra⟩

theorem reach_nil_eq (w h : Nat) (g x : List Nat) (hr : reach w h g [] x) :
    g = x := by
  have hra : Option.some g = Option.some x := hr
  injection hra

theorem reach_refl (w h : Nat) (g : List Nat) : reach w h g [] g := rfl

/-! ### C1: the goal test recognises exactly the canonical goal grid -/

theorem goalGrid_length (w h : Nat) : (goalGrid w h).length = w * h := by
  rw [goalGrid, List.length_map, List.length_range]

theorem goalGrid_getD (w h i : Nat) (hi : i < w * h) :
    (goalGrid w h).getD i 0 =
      if i = w * h - 1 then 0 else (i + 1) % 256 := by
  rw [goalGrid, List.getD_eq_getElem _ 0 (by
    rw [List.length_map, List.length_range]; exact hi)]
  rw [List.getElem_map, List.getElem_range]

theorem row_idx_lt (w h y x : Nat) (hw : 0 < w) (hy : y < h - 1)
    (hx : x < w) : y * w + x < w * h - 1 := by
  have h1 : (y + 1) * w ≤ (h - 1) * w := Nat.mul_le_mul_right w (by omega)
  have h2 : (y + 1) * w = y * w + w := Nat.succ_mul y w
  have h3 : (h - 1) * w + w = h * w := by
    rw [← Nat.succ_mul]
    congr 1
    omega
  have h4 : h * w = w * h := Nat.mul_comm h w
  revert h1 h2 h3 h4 hx
  generalize y * w = A
  generalize (y + 1) * w = B
  generalize (h - 1) * w = C
  generalize h * w = D
  generalize w * h = E
  intro h1 h2 h3 h4 hx
  omega

theorem lastrow_idx_lt (w h x : Nat) (hx : x < w - 1) (hh : 0 < h) :
    w * (h - 1) + x < w * h - 1 := by
  have h1 : w * (h - 1) + w = w * h := by
    rw [← Nat.mul_succ]
    congr 1
    omega
  revert h1 hx
  generalize w * (h - 1) = A
  generalize w * h = B
  intro h1 hx
  omega

theorem corner_idx (w h : Nat) (hw : 0 < w) (hh : 0 < h) :
    (h - 1) * w + (w - 1) = w * h - 1 := by
  have h3 : (h - 1) * w + w = h * w := by
    rw [← Nat.succ_mul]
    congr 1
    omega
  have h4 : h * w = w * h := Nat.mul_comm h w
  revert h3 h4 hw
  generalize (h - 1) * w = C
  generalize h * w = D
  generalize w * h = E
  intro h3 h4 hw
  omega

theorem isSolved_iff (p : Puzzle) (hw : 0 < p.width) (hh : 0 < p.height)
    (hlen : p.grid.length = p.width * p.height) :
    isSolved p = true ↔ p.grid = goalGrid p.width p.height := by
  constructor
  · intro hs
    rw [isSolved] at hs
    by_cases hz : p.grid.getD (p.grid.length - 1) 0 ≠ 0
    · rw [if_pos hz] at hs; cases hs
    · rw [if_neg hz] at hs
      have hz0 : p.grid.getD (p.grid.length - 1) 0 = 0 := not_not.mp hz
      rw [hlen] at hz0
      rw [Bool.and_eq_true] at hs
      obtain ⟨hA, hB⟩ := hs
      rw [List.all_eq_true] at hA hB
      have hA2 : ∀ y, y < p.height - 1 → ∀ x, x < p.width →
          p.grid.getD (y * p.width + x) 0 = (y * p.width + x + 1) % 256 := by
        intro y hy x hx
        have h1 := hA y (List.mem_range.mpr hy)
        rw [List.all_eq_true] at h1
        exact eq_of_beq (h1 x (List.mem_range.mpr hx))
      have hB2 : ∀ x, x < p.width - 1 →
          p.grid.getD (p.width * (p.height - 1) + x) 0 =
            ((p.height - 1) * p.width + x + 1) % 256 := by
        intro x hx
        exact eq_of_beq (hB x (List.mem_range.mpr hx))
      apply eq_of_getD p.grid (goalGrid p.width p.height)
        (by rw [hlen, goalGrid_length])
      intro j hj
      rw [hlen] at hj
      rw [goalGrid_getD p.width p.height j hj]
      have hxw : j % p.width < p.width := Nat.mod_lt _ hw
      have hdecomp : (j / p.width) * p.width + j % p.width = j := by
        rw [Nat.mul_comm]
        exact Nat.div_add_mod j p.width
      have hylt : j / p.width < p.height := by
        rw [Nat.div_lt_iff_lt_mul hw]
        exact lt_of_lt_of_eq hj (Nat.mul_comm p.width p.height)
      by_cases hy : j / p.width < p.height - 1
      · have hval := hA2 _ hy _ hxw
        rw [hdecomp] at hval
        have hlt := row_idx_lt p.width p.height (j / p.width) (j % p.width)
          hw hy hxw
        rw [hdecomp] at hlt
        rw [if_neg (Nat.ne_of_lt hlt)]
        exact hval
      · have hy2 : j / p.width = p.height - 1 := by omega
        rw [hy2] at hdecomp
        by_cases hx2 : j % p.width < p.width - 1
        · have hvalB := hB2 _ hx2
          rw [Nat.mul_comm p.width (p.height - 1), hdecomp] at hvalB
          have hlt := lastrow_idx_lt p.width p.height (j % p.width) hx2 hh
          rw [Nat.mul_comm p.width (p.height - 1), hdecomp] at hlt
          rw [if_neg (Nat.ne_of_lt hlt)]
          exact hvalB
        · have hx3 : j % p.width = p.width - 1 := by omega
          have hjeq : j = p.width * p.height - 1 := by
            rw [← hdecomp, hx3]
            exact corner_idx p.width p.height hw hh
          rw [hjeq, if_pos rfl]
          exact hz0
  · intro hg
    rw [isSolved]
    have hwh : 0 < p.width * p.height := Nat.mul_pos hw hh
    have hz0 : p.grid.getD (p.grid.length - 1) 0 = 0 := by
      rw [hg, goalGrid_length,
        goalGrid_getD p.width p.height _ (by omega), if_pos rfl]
    rw [if_neg (fun hc => hc hz0), Bool.and_eq_true]
    constructor
    · rw [List.all_eq_true]
      intro y hy
      rw [List.all_eq_true]
      intro x hx
      rw [List.mem_range] at hy hx
      have hlt := row_idx_lt p.width p.height y x hw hy hx
      rw [hg, goalGrid_getD p.width p.height _
        (Nat.lt_of_lt_of_le hlt (Nat.sub_le _ _)), if_neg (Nat.ne_of_lt hlt)]
      exact beq_self_eq_true _
    · rw [List.all_eq_true]
      intro x hx
      rw [List.mem_range] at hx
      have hlt := lastrow_idx_lt p.width p.height x hx hh
      rw [hg, goalGrid_getD p.width p.height _
        (Nat.lt_of_lt_of_le hlt (Nat.sub_le _ _)), if_neg (Nat.ne_of_lt hlt)]
      rw [Nat.mul_comm p.width (p.height - 1)]
      exact beq_self_eq_true _

/-! ### C1: state-level step lemmas -/

theorem opposite_involutive (d : Direction) : d.opposite.opposite = d := by
  cases d <;> rfl

theorem pathDepth_le_maxDepth (w h : Nat) (s : Puzzle) (hok : StateOk w h s) :
    pathDepth s ≤ maxDepthConst := by
  have h1 := pathDepth_le_length s
  rw [hok.2.2.2.2.2.1] at h1
  exact h1

theorem moveEmpty_none_dir (p : Puzzle) (bi : Nat)
    (hba : BlankAt p.grid bi) :
    moveEmpty p Direction.none = PanicOr.ok Option.none := by
  have hfi := blankAt_findIdx p.grid bi hba
  rw [moveEmpty, emptyPosition?, hfi]

theorem moveEmpty_ne_panic (p : Puzzle) (bi : Nat)
    (hlen : p.grid.length = p.width * p.height)
    (hba : BlankAt p.grid bi) (d : Direction) :
    moveEmpty p d ≠ PanicOr.panic := by
  by_cases hd : d = Direction.none
  · subst hd
    rw [moveEmpty_none_dir p bi hba]
    intro hc; cases hc
  · obtain ⟨hblock, hfree⟩ := moveEmpty_char p bi hlen hba d hd
    by_cases hb : blockedAt p.width p.height bi d
    · rw [hblock hb]; intro hc; cases hc
    · rw [(hfree hb).1]; intro hc; cases hc

theorem neighboursGo_ok (p : Puzzle) (m : Option Metric) (bi : Nat)
    (hlen : p.grid.length = p.width * p.height)
    (hba : BlankAt p.grid bi) (ords : List Direction) :
    ∃ l, neighboursGo p m ords = PanicOr.ok l := by
  induction ords with
  | nil => exact ⟨[], rfl⟩
  | cons d rest ih =>
    obtain ⟨l, hl⟩ := ih
    unfold neighboursGo
    by_cases hskip : (d.opposite == lastMove p) = true
    · rw [if_pos hskip]
      exact ⟨l, hl⟩
    · rw [if_neg hskip]
      cases hmv : moveEmpty p d with
      | panic => exact absurd hmv (moveEmpty_ne_panic p bi hlen hba d)
      | ok oq =>
        cases oq with
        | none => exact ⟨l, hl⟩
        | some q =>
          rw [hl]
          exact ⟨_, rfl⟩

theorem isNormal_pushPath (l : List Direction) (d : Direction)
    (hd : d ≠ Direction.none) (hn : IsNormal l) :
    IsNormal (pushPath l d) := by
  obtain ⟨a, b, hab, ha, hb⟩ := hn
  subst hab
  by_cases hbe : b = []
  · subst hbe
    refine ⟨a, [], ?_, ha, fun e he => absurd he (List.not_mem_nil e)⟩
    rw [List.append_nil, pushPath_of_no_none a d ha]
  · obtain ⟨hpush, ha2, hb2⟩ := isNormal_push a b d ha hb hd hbe
    exact ⟨a ++ [d], b.tail, hpush, ha2, hb2⟩

theorem pathToVec_pushPath (l : List Direction) (d : Direction)
    (hd : d ≠ Direction.none) (hn : IsNormal l)
    (hlt : l.countP (fun e => e != Direction.none) < l.length) :
    (pushPath l d).filter (fun e => e != Direction.none) =
      l.filter (fun e => e != Direction.none) ++ [d] := by
  obtain ⟨a, b, hab, ha, hb⟩ := hn
  subst hab
  have hbne : b ≠ [] := by
    intro he
    subst he
    rw [List.append_nil, List.countP_eq_length_filter,
      List.filter_eq_self.mpr (fun x hx => by simpa using ha x hx)] at hlt
    exact Nat.lt_irrefl _ hlt
  obtain ⟨hpush, ha2, hb2⟩ := isNormal_push a b d ha hb hd hbne
  rw [hpush, filter_of_normal (a ++ [d]) b.tail ha2 hb2,
    filter_of_normal a b ha hb]

theorem moveEmpty_stateOk (w h : Nat) (s : Puzzle) (d : Direction)
    (q : Puzzle) (hok : StateOk w h s)
    (hmv : moveEmpty s d = PanicOr.ok (Option.some q)) :
    StateOk w h q ∧
      applyMove w h s.grid d = Option.some q.grid ∧
      (pathDepth s < maxDepthConst → pathDepth q = pathDepth s + 1) ∧
      (pathDepth s = maxDepthConst → pathDepth q = pathDepth s) ∧
      (pathDepth s < maxDepthConst → pathToVec q = pathToVec s ++ [d]) := by
  obtain ⟨hsw, hsh, hslen, ⟨bi, hba⟩, hu8, hplen, hnorm⟩ := hok
  obtain ⟨hqpath, hqw, hqh, hqglen, hqmet, hd⟩ := moveEmpty_some_fields s d q hmv
  have hlen2 : s.grid.length = s.width * s.height := by
    rw [hsw, hsh]; exact hslen
  have happ0 : applyMove s.width s.height s.grid d = Option.some q.grid :=
    applyMove_of_moveEmpty s bi hlen2 hba d q hmv
  rw [hsw, hsh] at happ0
  have hpres := applyMove_preserves w h s.grid bi hslen hba d q.grid happ0
  refine ⟨⟨by rw [hqw, hsw], by rw [hqh, hsh],
    by rw [hqglen]; exact hslen, ⟨_, hpres.2.1⟩, ?_,
    by rw [hqpath, pushPath_length]; exact hplen,
    by rw [hqpath]; exact isNormal_pushPath s.path d hd hnorm⟩,
    happ0, ?_, ?_, ?_⟩
  · intro x hx
    rcases hpres.2.2 x hx with hx1 | hx1
    · exact hu8 x hx1
    · omega
  · intro hlt
    rw [pathDepth, hqpath, countP_pushPath_of_lt s.path d hd
      (by rw [hplen]; exact hlt)]
    rfl
  · intro heq
    rw [pathDepth, hqpath, pushPath_of_full s.path (by rw [hplen]; exact heq) d]
    rfl
  · intro hlt
    rw [pathToVec, hqpath, pathToVec_pushPath s.path d hd hnorm
      (by rw [hplen]; exact hlt)]
    rfl

theorem validS_child (w h : Nat) (g0 : List Nat) (s q : Puzzle)
    (d : Direction) (hok : StateOk w h s) (hval : ValidS w h g0 s)
    (hmv : moveEmpty s d = PanicOr.ok (Option.some q))
    (hlt : pathDepth s < maxDepthConst) : ValidS w h g0 q := by
  obtain ⟨hqok, happ, hd1, hd2, hvec⟩ := moveEmpty_stateOk w h s d q hok hmv
  show reach w h g0 (pathToVec q) q.grid
  rw [hvec hlt]
  refine reach_trans w h g0 s.grid q.grid (pathToVec s) [d] hval ?_
  show applyMoves w h s.grid [d] = Option.some q.grid
  rw [applyMoves_singleton]
  exact happ

theorem applyMove_gridOk (w h : Nat) (g : List Nat) (d : Direction)
    (y : List Nat) (hok : GridOk w h g)
    (happ : applyMove w h g d = Option.some y) : GridOk w h y := by
  obtain ⟨hlen, ⟨bi, hba⟩, hu8⟩ := hok
  obtain ⟨hylen, hyba, hymem⟩ :=
    applyMove_preserves w h g bi hlen hba d y happ
  refine ⟨hylen, ⟨_, hyba⟩, ?_⟩
  intro x hx
  rcases hymem x hx with hx1 | hx1
  · exact hu8 x hx1
  · omega

theorem reach_gridOk (w h : Nat) (l : List Direction) :
    ∀ g g2 : List Nat, GridOk w h g → reach w h g l g2 → GridOk w h g2 := by
  induction l with
  | nil =>
    intro g g2 hok hr
    rw [← reach_nil_eq w h g g2 hr]
    exact hok
  | cons d ds ih =>
    intro g g2 hok hr
    obtain ⟨y, ha, hr2⟩ := reach_cons_inv w h g g2 d ds hr
    exact ih y g2 (applyMove_gridOk w h g d y hok ha) hr2

theorem lastMove_split (s : Puzzle) (hnorm : IsNormal s.path)
    (hpos : 0 < pathDepth s) :
    ∃ pre, pathToVec s = pre ++ [lastMove s] ∧
      pre.length + 1 = pathDepth s := by
  obtain ⟨a, b, hab, ha, hb⟩ := hnorm
  have hdepth : pathDepth s = a.length := by
    rw [pathDepth, hab, countP_of_normal a b ha hb]
  have hane : a ≠ [] := by
    intro he
    rw [he] at hdepth
    rw [hdepth] at hpos
    exact Nat.lt_irrefl _ hpos
  have hapos : 0 < a.length := List.length_pos.mpr hane
  have hlast : lastMove s = a.getLast hane := by
    rw [lastMove, if_pos hpos, hab, hdepth]
    rw [List.getD_eq_getElem _ _
      (by rw [List.length_append]; omega)]
    rw [List.getElem_append_left (by omega)]
    rw [List.getLast_eq_getElem]
  refine ⟨a.dropLast, ?_, ?_⟩
  · rw [pathToVec, hab, filter_of_normal a b ha hb, hlast]
    exact (List.dropLast_append_getLast hane).symm
  · rw [List.length_dropLast, hdepth]
    omega

theorem skip_undo (w h : Nat) (g0 : List Nat) (s : Puzzle) (d : Direction)
    (y : List Nat) (hg0 : GridOk w h g0) (hok : StateOk w h s)
    (hval : ValidS w h g0 s) (hskip : (d.opposite == lastMove s) = true)
    (happ : applyMove w h s.grid d = Option.some y) :
    ∃ pre, reach w h g0 pre y ∧ pre.length + 1 = pathDepth s := by
  have hde : d.opposite = lastMove s := eq_of_beq hskip
  have hdnone : d ≠ Direction.none := by
    intro he
    subst he
    rw [applyMove_none_dir] at happ
    cases happ
  have hpos : 0 < pathDepth s := by
    rcases Nat.eq_zero_or_pos (pathDepth s) with h0 | hp
    · rw [lastMove, if_neg (by omega)] at hde
      cases d <;> first
        | exact absurd rfl hdnone
        | exact Direction.noConfusion hde
    · exact hp
  obtain ⟨pre, hsplit, hprelen⟩ := lastMove_split s hok.2.2.2.2.2.2 hpos
  have hvalr : reach w h g0 (pre ++ [lastMove s]) s.grid := by
    rw [← hsplit]; exact hval
  obtain ⟨z, hrz, hstep⟩ := reach_snoc_inv w h g0 s.grid pre (lastMove s) hvalr
  have hzok : GridOk w h z := reach_gridOk w h pre g0 z hg0 hrz
  obtain ⟨hzlen, ⟨bz, hzba⟩, hzu8⟩ := hzok
  have hundo : applyMove w h s.grid (lastMove s).opposite = Option.some z :=
    applyMove_undo w h z bz hzlen hzba (lastMove s) s.grid hstep
  have hdeq : d = (lastMove s).opposite := by
    rw [← hde, opposite_involutive]
  rw [← hdeq] at hundo
  rw [happ] at hundo
  injection hundo with hyz
  refine ⟨pre, ?_, hprelen⟩
  rw [hyz]
  exact hrz

/-! ### C1: registry-fold lemmas for the BFS step -/

theorem processNeighbours_cons (q v : List Puzzle) (n : Puzzle)
    (ns : List Puzzle) :
    processNeighbours q v (n :: ns) =
      processNeighbours (if (upsertStep v n).2 then q ++ [n] else q)
        (upsertStep v n).1 ns := rfl

theorem processNeighbours_snd (ns : List Puzzle) :
    ∀ q v : List Puzzle, (processNeighbours q v ns).2 = upsertAll v ns := by
  induction ns with
  | nil => intro q v; rfl
  | cons n rest ih =>
    intro q v
    rw [processNeighbours_cons, ih]
    rfl

theorem upsertStep_no_replace (v : List Puzzle) (n : Puzzle)
    (hle : ∀ t, storedAt v n.grid = Option.some t →
      pathDepth t ≤ pathDepth n) :
    (storedAt v n.grid = Option.none ∧ (upsertStep v n).1 = n :: v ∧
      (upsertStep v n).2 = true) ∨
    (storedAt v n.grid ≠ Option.none ∧ (upsertStep v n).1 = v ∧
      (upsertStep v n).2 = false) := by
  cases hget : storedAt v n.grid with
  | none =>
    left
    refine ⟨rfl, ?_, ?_⟩ <;>
      rw [upsertStep, visitedGet_eq_storedAt, hget]
  | some t =>
    right
    have hnlt : ¬ pathDepth n < pathDepth t := by
      have := hle t hget
      omega
    refine ⟨fun hc => Option.noConfusion hc, ?_, ?_⟩
    · rw [upsertStep, visitedGet_eq_storedAt, hget]
      show (if pathDepth n < pathDepth t then (visitedReplace v n, true)
        else (v, false)).1 = v
      rw [if_neg hnlt]
    · rw [upsertStep, visitedGet_eq_storedAt, hget]
      show (if pathDepth n < pathDepth t then (visitedReplace v n, true)
        else (v, false)).2 = false
      rw [if_neg hnlt]

theorem storedAt_cons_none (v : List Puzzle) (n : Puzzle) (g : List Nat)
    (h : storedAt (n :: v) g = Option.none) :
    storedAt v g = Option.none := by
  rw [storedAt_cons] at h
  split at h
  · exact Option.noConfusion h
  · exact h

theorem processNeighbours_bfs (k : Nat) (ns : List Puzzle)
    (hk : ∀ c ∈ ns, pathDepth c = k) :
    ∀ q v : List Puzzle,
      DistinctGrids v →
      (∀ (g : List Nat) (t : Puzzle), storedAt v g = Option.some t →
        pathDepth t ≤ k) →
      ∃ added : List Puzzle,
        (processNeighbours q v ns).1 = q ++ added ∧
        (processNeighbours q v ns).2 = added.reverse ++ v ∧
        (∀ c ∈ added, c ∈ ns) ∧
        (∀ c ∈ added, storedAt v c.grid = Option.none) := by
  induction ns with
  | nil =>
    intro q v hdist hv
    exact ⟨[], by rw [List.append_nil]; rfl, rfl,
      fun c hc => absurd hc (List.not_mem_nil c),
      fun c hc => absurd hc (List.not_mem_nil c)⟩
  | cons n rest ih =>
    intro q v hdist hv
    have hkn : pathDepth n = k := hk n (List.mem_cons_self n rest)
    have hkrest : ∀ c ∈ rest, pathDepth c = k :=
      fun c hc => hk c (List.mem_cons_of_mem _ hc)
    have hle : ∀ t, storedAt v n.grid = Option.some t →
        pathDepth t ≤ pathDepth n := by
      intro t ht
      rw [hkn]
      exact hv _ t ht
    rw [processNeighbours_cons]
    rcases upsertStep_no_replace v n hle with
      ⟨hnone, hv1, hb1⟩ | ⟨hsome, hv1, hb1⟩
    · rw [hv1, hb1, if_pos rfl]
      have hdist2 : DistinctGrids (n :: v) := by
        rw [DistinctGrids, List.map_cons, List.nodup_cons]
        refine ⟨?_, hdist⟩
        intro hc
        obtain ⟨t, htv, htg⟩ := List.mem_map.mp hc
        have := storedAt_mem_ne_none v t htv
        rw [htg] at this
        exact this hnone
      have hv2 : ∀ (g : List Nat) (t : Puzzle),
          storedAt (n :: v) g = Option.some t → pathDepth t ≤ k := by
        intro g t ht
        rw [storedAt_cons] at ht
        split at ht
        · injection ht with ht2
          rw [← ht2, hkn]
        · exact hv g t ht
      obtain ⟨added2, hq2, hvv2, hsub2, hfresh2⟩ :=
        ih hkrest (q ++ [n]) (n :: v) hdist2 hv2
      refine ⟨n :: added2, ?_, ?_, ?_, ?_⟩
      · rw [hq2, List.append_assoc]
        rfl
      · rw [hvv2, List.reverse_cons, List.append_assoc]
        rfl
      · intro c hc
        rcases List.mem_cons.mp hc with rfl | hc2
        · exact List.mem_cons_self _ _
        · exact List.mem_cons_of_mem _ (hsub2 c hc2)
      · intro c hc
        rcases List.mem_cons.mp hc with rfl | hc2
        · exact hnone
        · exact storedAt_cons_none v n c.grid (hfresh2 c hc2)
    · rw [hv1, hb1, if_neg (fun hc => Bool.noConfusion hc)]
      obtain ⟨added2, hq2, hvv2, hsub2, hfresh2⟩ :=
        ih hkrest q v hdist hv
      exact ⟨added2, hq2, hvv2,
        fun c hc => List.mem_cons_of_mem _ (hsub2 c hc), hfresh2⟩

/-! ### C1: cardinality bound and measure arithmetic -/

theorem distinct_card_bound (w h : Nat) (v : List Puzzle)
    (hdist : DistinctGrids v)
    (hok : ∀ s ∈ v, s.grid.length = w * h ∧ ∀ x ∈ s.grid, x < 256) :
    v.length ≤ 256 ^ (w * h) := by
  classical
  have hinj : ∀ g1 ∈ v.map Puzzle.grid, ∀ g2 ∈ v.map Puzzle.grid,
      encGrid w h g1 = encGrid w h g2 → g1 = g2 := by
    intro g1 hg1 g2 hg2 he
    obtain ⟨s1, hs1, rfl⟩ := List.mem_map.mp hg1
    obtain ⟨s2, hs2, rfl⟩ := List.mem_map.mp hg2
    obtain ⟨hl1, hu1⟩ := hok s1 hs1
    obtain ⟨hl2, hu2⟩ := hok s2 hs2
    apply eq_of_getD _ _ (by rw [hl1, hl2])
    intro j hj
    rw [hl1] at hj
    have hv1 : s1.grid.getD j 0 < 256 := by
      rw [List.getD_eq_getElem _ 0 (by rw [hl1]; exact hj)]
      exact hu1 _ (List.getElem_mem _)
    have hv2 : s2.grid.getD j 0 < 256 := by
      rw [List.getD_eq_getElem _ 0 (by rw [hl2]; exact hj)]
      exact hu2 _ (List.getElem_mem _)
    have hval := congrArg Fin.val (congrFun he ⟨j, hj⟩)
    simp only [encGrid] at hval
    rw [Nat.mod_eq_of_lt hv1, Nat.mod_eq_of_lt hv2] at hval
    exact hval
  have hnd : ((v.map Puzzle.grid).map (encGrid w h)).Nodup :=
    List.Nodup.map_on hinj hdist
  have hle := List.Nodup.length_le_card hnd
  rw [List.length_map, List.length_map] at hle
  rw [Fintype.card_fun, Fintype.card_fin, Fintype.card_fin] at hle
  exact hle

theorem twoLevel_tail (s : Puzzle) (rest : List Puzzle)
    (h : TwoLevel (s :: rest)) : TwoLevel rest :=
  (List.pairwise_cons.mp h).2

theorem twoLevel_head_le (s : Puzzle) (rest : List Puzzle)
    (h : TwoLevel (s :: rest)) :
    ∀ t ∈ rest, pathDepth s ≤ pathDepth t ∧
      pathDepth t ≤ pathDepth s + 1 :=
  (List.pairwise_cons.mp h).1

theorem map_sum_le (l : List Puzzle) (k : Nat)
    (h : ∀ s ∈ l, pathDepth s ≤ k) :
    (l.map pathDepth).sum ≤ k * l.length := by
  induction l with
  | nil => simp
  | cons a rest ih =>
    rw [List.map_cons, List.sum_cons, List.length_cons, Nat.mul_succ]
    have h1 := h a (List.mem_cons_self a rest)
    have h2 := ih (fun s hs => h s (List.mem_cons_of_mem _ hs))
    omega

theorem bfsMeasure_step (w h : Nat) (current : Puzzle)
    (rest added v : List Puzzle)
    (hd : ∀ s ∈ added, pathDepth s ≤ maxDepthConst)
    (hcard : added.length + v.length ≤ 256 ^ (w * h)) :
    bfsMeasure w h (rest ++ added) (added.reverse ++ v) <
      bfsMeasure w h (current :: rest) v := by
  rw [bfsMeasure, bfsMeasure]
  rw [List.length_append, List.length_cons, List.length_append,
    List.length_reverse, List.map_append, List.sum_append, List.map_reverse,
    List.sum_reverse]
  have hsum := map_sum_le added maxDepthConst hd
  have h20 : maxDepthConst = 20 := rfl
  rw [h20] at hsum
  revert hcard hsum
  generalize 256 ^ (w * h) = N
  intro hcard hsum
  omega

/-! ### C1: the BFS invariant is preserved by one expansion step -/

theorem bfs_children (w h : Nat) (g0 : List Nat) (ord : List Direction)
    (current : Puzzle) (ns : List Puzzle) (hokC : StateOk w h current)
    (hns : neighboursGo current Option.none ord = PanicOr.ok ns) :
    ∀ c ∈ ns, StateOk w h c ∧
      pathDepth c = min (pathDepth current + 1) maxDepthConst ∧
      (ValidS w h g0 current → pathDepth current < maxDepthConst →
        ValidS w h g0 c) := by
  intro c hc
  obtain ⟨d, q, hd, hskip, hmv, hcq⟩ :=
    neighboursGo_mem current Option.none ord ns hns c hc
  rw [withMetric_none] at hcq
  subst hcq
  obtain ⟨hqok, happ, hd1, hd2, hvec⟩ :=
    moveEmpty_stateOk w h current d c hokC hmv
  have hcap := pathDepth_le_maxDepth w h current hokC
  refine ⟨hqok, ?_,
    fun hval hlt => validS_child w h g0 current c d hokC hval hmv hlt⟩
  rcases Nat.lt_or_ge (pathDepth current) maxDepthConst with hlt | hge
  · rw [hd1 hlt]
    omega
  · have heq : pathDepth current = maxDepthConst := Nat.le_antisymm hcap hge
    rw [hd2 heq, heq]
    omega

theorem bfs_step (w h L : Nat) (g0 : List Nat) (ord : List Direction)
    (hg0 : GridOk w h g0)
    (hord : ∀ d : Direction, d ≠ Direction.none → d ∈ ord)
    (hLmin : ∀ l, reach w h g0 l (goalGrid w h) → L ≤ l.length)
    (hL20 : L ≤ maxDepthConst)
    (current : Puzzle) (rest v ns : List Puzzle)
    (hinv : BfsInv w h g0 L (current :: rest) v)
    (hng : current.grid ≠ goalGrid w h)
    (hns : neighboursGo current Option.none ord = PanicOr.ok ns) :
    BfsInv w h g0 L (processNeighbours rest v ns).1
      (processNeighbours rest v ns).2 ∧
    bfsMeasure w h (processNeighbours rest v ns).1
      (processNeighbours rest v ns).2 <
      bfsMeasure w h (current :: rest) v := by
  classical
  have hokC := hinv.okQ current (List.mem_cons_self _ _)
  have hvalC : pathDepth current + 1 ≤ maxDepthConst →
      ValidS w h g0 current :=
    fun hle =>
      hinv.validLow hle current (hinv.qsubV current (List.mem_cons_self _ _))
  have hcapC := pathDepth_le_maxDepth w h current hokC
  have hchild := bfs_children w h g0 ord current ns hokC hns
  have hvbound : ∀ (g : List Nat) (t : Puzzle),
      storedAt v g = Option.some t →
      pathDepth t ≤ min (pathDepth current + 1) maxDepthConst := by
    intro g t ht
    have htv := storedAt_some_mem v g t ht
    have h1 : pathDepth t ≤ pathDepth current + 1 := hinv.depthV t htv
    have h2 := pathDepth_le_maxDepth w h t (hinv.okV t htv)
    omega
  obtain ⟨added, hq1, hv1, hsub, hfresh⟩ :=
    processNeighbours_bfs (min (pathDepth current + 1) maxDepthConst) ns
      (fun c hc => (hchild c hc).2.1) rest v hinv.dist hvbound
  rw [hq1, hv1]
  have hmemv2 : ∀ s : Puzzle, s ∈ added.reverse ++ v ↔ s ∈ added ∨ s ∈ v := by
    intro s
    rw [List.mem_append, List.mem_reverse]
  have hmemq2 : ∀ s : Puzzle, s ∈ rest ++ added ↔ s ∈ rest ∨ s ∈ added :=
    fun s => List.mem_append
  have haddedOk : ∀ c ∈ added, StateOk w h c :=
    fun c hc => (hchild c (hsub c hc)).1
  have haddedDepth : ∀ c ∈ added,
      pathDepth c = min (pathDepth current + 1) maxDepthConst :=
    fun c hc => (hchild c (hsub c hc)).2.1
  have hrestDepth : ∀ s ∈ rest, pathDepth current ≤ pathDepth s ∧
      pathDepth s ≤ pathDepth current + 1 :=
    twoLevel_head_le current rest hinv.two
  have hrestOk : ∀ s ∈ rest, StateOk w h s :=
    fun s hs => hinv.okQ s (List.mem_cons_of_mem _ hs)
  have hcov : ∃ u, u ∈ rest ++ added ∧ Settled w h g0 u ∧
      ∃ m2, reach w h u.grid m2 (goalGrid w h) ∧
        pathDepth u + m2.length = L := by
    obtain ⟨sc, hscq, hscset, m, hscr, hsum⟩ := hinv.covers
    rcases List.mem_cons.mp hscq with heq | hscrest
    · subst heq
      cases m with
      | nil => exact absurd (reach_nil_eq w h _ _ hscr) hng
      | cons dy m1 =>
        obtain ⟨y, happy, hry⟩ := reach_cons_inv w h sc.grid _ dy m1 hscr
        have hdyne : dy ≠ Direction.none := by
          intro he
          rw [he, applyMove_none_dir] at happy
          cases happy
        rw [List.length_cons] at hsum
        have hminy : ∀ l, reach w h g0 l y →
            pathDepth sc + 1 ≤ l.length := by
          intro l hl
          have := hLmin (l ++ m1)
            (reach_trans w h g0 y (goalGrid w h) l m1 hl hry)
          rw [List.length_append] at this
          omega
        have hsc19 : pathDepth sc + 1 ≤ maxDepthConst := by omega
        have hvalsc : ValidS w h g0 sc := hvalC hsc19
        have hskipoff : (dy.opposite == lastMove sc) = false := by
          cases hbv : (dy.opposite == lastMove sc) with
          | false => rfl
          | true =>
            obtain ⟨pre, hpre, hprelen⟩ :=
              skip_undo w h g0 sc dy y hg0 hokC hvalsc hbv happy
            have := hminy pre hpre
            omega
        have hsclen2 : sc.grid.length = sc.width * sc.height := by
          rw [hokC.1, hokC.2.1]; exact hokC.2.2.1
        obtain ⟨bi, hba⟩ := hokC.2.2.2.1
        obtain ⟨qy, hqmv, hqgrid⟩ :=
          moveEmpty_of_applyMove sc bi hsclen2 hba dy y
            (by rw [hokC.1, hokC.2.1]; exact happy)
        have hqymem : qy ∈ ns := by
          have := neighboursGo_mem_of sc Option.none ord ns hns dy qy
            (hord dy hdyne) hskipoff hqmv
          rw [withMetric_none] at this
          exact this
        have hstne : storedAt (added.reverse ++ v) qy.grid ≠
            Option.none := by
          rw [← hv1, processNeighbours_snd]
          exact (upsertAll_spec ns v hinv.dist).2.2.2 qy hqymem
        cases hstored : storedAt (added.reverse ++ v) qy.grid with
        | none => exact absurd hstored hstne
        | some u =>
          have hugrid : u.grid = qy.grid := storedAt_some_grid _ _ _ hstored
          have humem : u ∈ added ∨ u ∈ v :=
            (hmemv2 u).mp (storedAt_some_mem _ _ _ hstored)
          have hf19 : pathDepth sc < maxDepthConst := by omega
          have hvalu : ValidS w h g0 u := by
            rcases humem with hu1 | hu1
            · exact (hchild u (hsub u hu1)).2.2 hvalsc hf19
            · exact hinv.validLow hsc19 u hu1
          have hru : reach w h g0 (pathToVec u) y := by
            rw [← hqgrid, ← hugrid]
            exact hvalu
          have hge1 := hminy (pathToVec u) hru
          rw [length_pathToVec] at hge1
          have hudepth : pathDepth u = pathDepth sc + 1 := by
            have hle1 : pathDepth u ≤ pathDepth sc + 1 := by
              rcases humem with hu1 | hu1
              · have := haddedDepth u hu1
                omega
              · exact hinv.depthV u hu1
            omega
          have husettled : Settled w h g0 u := by
            refine ⟨hvalu, ?_⟩
            intro l hl
            rw [hugrid, hqgrid] at hl
            have := hminy l hl
            omega
          have huq : u ∈ rest ++ added := by
            rcases humem with hu1 | hu1
            · exact (hmemq2 u).mpr (Or.inr hu1)
            · have hin := hinv.inQ u hu1 (by
                show pathDepth sc < pathDepth u
                omega)
              rcases List.mem_cons.mp hin with heq2 | hu2
              · rw [heq2] at hudepth
                omega
              · exact (hmemq2 u).mpr (Or.inl hu2)
          refine ⟨u, huq, husettled, m1, ?_, ?_⟩
          · rw [hugrid, hqgrid]
            exact hry
          · omega
    · exact ⟨sc, (hmemq2 sc).mpr (Or.inl hscrest), hscset, m, hscr, hsum⟩
  obtain ⟨u0, hu0q, hu0set, m0, hu0r, hu0sum⟩ := hcov
  have hq2ne : rest ++ added ≠ [] := by
    intro he
    rw [he] at hu0q
    exact List.not_mem_nil u0 hu0q
  obtain ⟨s0, t0, hq2eq⟩ : ∃ s0 t0, rest ++ added = s0 :: t0 := by
    cases hqe : rest ++ added with
    | nil => exact absurd hqe hq2ne
    | cons a b => exact ⟨a, b, rfl⟩
  have hs0mem : s0 ∈ rest ∨ s0 ∈ added := by
    rw [← hmemq2 s0, hq2eq]
    exact List.mem_cons_self _ _
  have hfront2 : frontDepth (rest ++ added) = pathDepth s0 := by
    rw [hq2eq]
    rfl
  have hFle : pathDepth current ≤ frontDepth (rest ++ added) := by
    rw [hfront2]
    rcases hs0mem with h1 | h1
    · exact (hrestDepth s0 h1).1
    · rw [haddedDepth s0 h1]
      omega
  have hcapRest : ∀ s ∈ rest, pathDepth s ≤ maxDepthConst :=
    fun s hs => pathDepth_le_maxDepth w h s (hrestOk s hs)
  refine ⟨⟨?_, ?_, ?_, ?_, ?_, ?_, ?_, ?_, ?_, ?_⟩, ?_⟩
  · intro s hs
    rcases (hmemq2 s).mp hs with h1 | h1
    · exact hrestOk s h1
    · exact haddedOk s h1
  · intro s hs
    rcases (hmemv2 s).mp hs with h1 | h1
    · exact haddedOk s h1
    · exact hinv.okV s h1
  · intro s hs
    rcases (hmemq2 s).mp hs with h1 | h1
    · exact (hmemv2 s).mpr
        (Or.inr (hinv.qsubV s (List.mem_cons_of_mem _ h1)))
    · exact (hmemv2 s).mpr (Or.inl h1)
  · unfold TwoLevel
    rw [List.pairwise_append]
    refine ⟨twoLevel_tail current rest hinv.two, ?_, ?_⟩
    · apply List.pairwise_of_forall_mem_list
      intro a ha b hb
      rw [haddedDepth a ha, haddedDepth b hb]
      omega
    · intro a ha b hb
      have h1 := hrestDepth a ha
      have h2 := hcapRest a ha
      rw [haddedDepth b hb]
      constructor <;> omega
  · rw [← hv1, processNeighbours_snd]
    exact (upsertAll_spec ns v hinv.dist).1
  · intro s hs
    rcases (hmemv2 s).mp hs with h1 | h1
    · rw [haddedDepth s h1]
      omega
    · have h2 : pathDepth s ≤ pathDepth current + 1 := hinv.depthV s h1
      omega
  · intro s hs hlt
    rcases (hmemv2 s).mp hs with h1 | h1
    · exact (hmemq2 s).mpr (Or.inr h1)
    · have h2 : pathDepth current < pathDepth s := by omega
      have h3 := hinv.inQ s h1 h2
      rcases List.mem_cons.mp h3 with heq | h4
      · rw [heq] at h2
        exact absurd h2 (Nat.lt_irrefl _)
      · exact (hmemq2 s).mpr (Or.inl h4)
  · intro hle s hs
    have hle2 : pathDepth current + 1 ≤ maxDepthConst := by omega
    rcases (hmemv2 s).mp hs with h1 | h1
    · exact (hchild s (hsub s h1)).2.2 (hvalC hle2) (by omega)
    · exact hinv.validLow hle2 s h1
  · intro s hs hgoal
    rcases (hmemq2 s).mp hs with h1 | h1
    · exact hinv.goalQ s (List.mem_cons_of_mem _ h1) hgoal
    · have hfreshs := hfresh s h1
      have hFL : pathDepth current < L := by
        by_contra hc
        obtain ⟨sc, hscq, ⟨hscval, hscmin⟩, m, hscr, hsum⟩ := hinv.covers
        have hscF : pathDepth current ≤ pathDepth sc := by
          rcases List.mem_cons.mp hscq with heq | h2
          · rw [heq]
          · exact (hrestDepth sc h2).1
        have hm0 : m.length = 0 := by omega
        have hm : m = [] := List.length_eq_zero.mp hm0
        subst hm
        have hgr : sc.grid = goalGrid w h := reach_nil_eq w h _ _ hscr
        have hscv : sc ∈ v := hinv.qsubV sc hscq
        have hne := storedAt_mem_ne_none v sc hscv
        rw [hgr, ← hgoal] at hne
        exact hne hfreshs
      have hF19 : pathDepth current + 1 ≤ maxDepthConst := by omega
      have hvalc2 : ValidS w h g0 s :=
        (hchild s (hsub s h1)).2.2 (hvalC hF19) (by omega)
      have hdep : pathDepth s = pathDepth current + 1 := by
        have := haddedDepth s h1
        omega
      refine ⟨hvalc2, ?_⟩
      have hge : L ≤ pathDepth s := by
        have hr : reach w h g0 (pathToVec s) (goalGrid w h) := by
          rw [← hgoal]
          exact hvalc2
        have := hLmin _ hr
        rw [length_pathToVec] at this
        exact this
      omega
  · exact ⟨u0, hu0q, hu0set, m0, hu0r, hu0sum⟩
  · apply bfsMeasure_step
    · intro s hs
      exact pathDepth_le_maxDepth w h s (haddedOk s hs)
    · have hdist2 : DistinctGrids (added.reverse ++ v) := by
        rw [← hv1, processNeighbours_snd]
        exact (upsertAll_spec ns v hinv.dist).1
      have hok2 : ∀ s ∈ added.reverse ++ v, s.grid.length = w * h ∧
          ∀ x ∈ s.grid, x < 256 := by
        intro s hs
        rcases (hmemv2 s).mp hs with h1 | h1
        · have hsk := haddedOk s h1
          exact ⟨hsk.2.2.1, hsk.2.2.2.2.1⟩
        · have hsk := hinv.okV s h1
          exact ⟨hsk.2.2.1, hsk.2.2.2.2.1⟩
      have hlen := distinct_card_bound w h (added.reverse ++ v) hdist2 hok2
      rw [List.length_append, List.length_reverse] at hlen
      exact hlen

/-! ### C1: the BFS loop returns a minimal solution -/

theorem bfs_loop_good (w h L : Nat) (g0 : List Nat) (ord : List Direction)
    (hw : 0 < w) (hh : 0 < h) (hg0 : GridOk w h g0)
    (hord : ∀ d : Direction, d ≠ Direction.none → d ∈ ord)
    (hLmin : ∀ l, reach w h g0 l (goalGrid w h) → L ≤ l.length)
    (hL20 : L ≤ maxDepthConst) :
    ∀ (fuel : Nat) (q v : List Puzzle) (md pc : Nat),
      BfsInv w h g0 L q v → bfsMeasure w h q v < fuel →
      ∃ r pa, solveBasicLoop ord false fuel q v md pc = RunOut.done r ∧
        r.path = Option.some pa ∧ reach w h g0 pa (goalGrid w h) ∧
        pa.length = L := by
  intro fuel
  induction fuel with
  | zero =>
    intro q v md pc hinv hmu
    exact absurd hmu (Nat.not_lt_zero _)
  | succ fuel ih =>
    intro q v md pc hinv hmu
    obtain ⟨sc, hscq, hscset, m, hscr, hsum⟩ := hinv.covers
    cases hq : q with
    | nil =>
      rw [hq] at hscq
      exact absurd hscq (List.not_mem_nil sc)
    | cons current rest =>
      subst hq
      have hpop : popQueue false (current :: rest) =
          Option.some (current, rest) := rfl
      rw [solveBasicLoop_succ_some ord false fuel _ v md pc current rest hpop]
      have hokC := hinv.okQ current (List.mem_cons_self _ _)
      by_cases hsolved : isSolved current = true
      · rw [if_pos hsolved]
        have hgw : current.grid = goalGrid w h := by
          have hg := (isSolved_iff current (by rw [hokC.1]; exact hw)
            (by rw [hokC.2.1]; exact hh)
            (by rw [hokC.1, hokC.2.1]; exact hokC.2.2.1)).mp hsolved
          rw [hokC.1, hokC.2.1] at hg
          exact hg
        obtain ⟨hval, hdep⟩ :=
          hinv.goalQ current (List.mem_cons_self _ _) hgw
        refine ⟨_, pathToVec current, rfl, rfl, ?_, ?_⟩
        · rw [← hgw]
          exact hval
        · rw [length_pathToVec]
          exact hdep
      · rw [if_neg hsolved, if_neg (by simp)]
        obtain ⟨bi, hba⟩ := hokC.2.2.2.1
        obtain ⟨ns, hns⟩ := neighboursGo_ok current Option.none bi
          (by rw [hokC.1, hokC.2.1]; exact hokC.2.2.1) hba ord
        have hns2 : getNeighbourStates current ord Option.none =
            PanicOr.ok ns := hns
        rw [hns2]
        have hng : current.grid ≠ goalGrid w h := by
          intro hc
          apply hsolved
          apply (isSolved_iff current (by rw [hokC.1]; exact hw)
            (by rw [hokC.2.1]; exact hh)
            (by rw [hokC.1, hokC.2.1]; exact hokC.2.2.1)).mpr
          rw [hokC.1, hokC.2.1]
          exact hc
        obtain ⟨hinv2, hmu2⟩ := bfs_step w h L g0 ord hg0 hord hLmin hL20
          current rest v ns hinv hng hns
        exact ih (processNeighbours rest v ns).1
          (processNeighbours rest v ns).2 _ _ hinv2 (by omega)

/-! ### Claim C1 -/

/-- C1 (amended): for an initial grid of positive dimensions with `u8`
entries and exactly one blank, a move order containing all four directions,
and a goal reachable within `MAX_DEPTH = 20` moves, BFS (with enough fuel)
returns a path of minimum length among all move sequences transforming the
initial grid into the goal; and whenever the queue empties the result is
no-path with the registry size, processed count and max depth reported. -/
theorem c1_bfs_minimal (w h : Nat) (g0 : List Nat) (ord : List Direction)
    (sol : List Direction) (hw : 0 < w) (hh : 0 < h)
    (hlen : g0.length = w * h) (hcnt : g0.count 0 = 1)
    (hu8 : ∀ x ∈ g0, x < 256)
    (hord : ∀ d : Direction, d ≠ Direction.none → d ∈ ord)
    (hsol : reach w h g0 sol (goalGrid w h))
    (hsol20 : sol.length ≤ maxDepthConst) :
    (∃ fuel r pa, solveBasic (mkInitial g0 w h) ord false fuel =
        RunOut.done r ∧ r.path = Option.some pa ∧
        reach w h g0 pa (goalGrid w h) ∧
        ∀ l, reach w h g0 l (goalGrid w h) → pa.length ≤ l.length) ∧
    (∀ (fuel : Nat) (v : List Puzzle) (md pc : Nat),
      solveBasicLoop ord false (fuel + 1) [] v md pc =
        RunOut.done
          { path := Option.none, visitedStates := v.length,
            processedStates := pc, maxDepth := md }) := by
  classical
  have hg0 : GridOk w h g0 := ⟨hlen, count_one_blankAt g0 hcnt, hu8⟩
  constructor
  · have hPex : ∃ k, ∃ l, reach w h g0 l (goalGrid w h) ∧ l.length = k :=
      ⟨sol.length, sol, hsol, rfl⟩
    obtain ⟨lmin, hlminr, hlminlen⟩ := Nat.find_spec hPex
    have hLmin : ∀ l, reach w h g0 l (goalGrid w h) →
        Nat.find hPex ≤ l.length := by
      intro l hl
      exact Nat.find_min' hPex ⟨l, hl, rfl⟩
    have hL20 : Nat.find hPex ≤ maxDepthConst :=
      le_trans (Nat.find_min' hPex ⟨sol, hsol, rfl⟩) hsol20
    have hp0ok : StateOk w h (mkInitial g0 w h) := by
      exact ⟨rfl, rfl, hlen, count_one_blankAt g0 hcnt, hu8, rfl,
        isNormal_replicate _⟩
    have hp0depth : pathDepth (mkInitial g0 w h) = 0 := rfl
    have hp0valid : ValidS w h g0 (mkInitial g0 w h) := by
      show reach w h g0 (pathToVec (mkInitial g0 w h))
        (mkInitial g0 w h).grid
      have hvec : pathToVec (mkInitial g0 w h) = [] := rfl
      rw [hvec]
      exact reach_refl w h g0
    have hgoalL : (mkInitial g0 w h).grid = goalGrid w h →
        pathDepth (mkInitial g0 w h) = Nat.find hPex := by
      intro hgo
      have hr0 : reach w h g0 [] (goalGrid w h) := by
        show applyMoves w h g0 [] = Option.some (goalGrid w h)
        rw [← hgo]
        rfl
      have hfle := hLmin [] hr0
      rw [List.length_nil] at hfle
      rw [hp0depth]
      omega
    have hinv : BfsInv w h g0 (Nat.find hPex)
        [mkInitial g0 w h] [mkInitial g0 w h] := by
      refine ⟨?_, ?_, ?_, ?_, ?_, ?_, ?_, ?_, ?_, ?_⟩
      · intro s hs
        rw [List.mem_singleton] at hs
        subst hs
        exact hp0ok
      · intro s hs
        rw [List.mem_singleton] at hs
        subst hs
        exact hp0ok
      · intro s hs
        exact hs
      · unfold TwoLevel
        exact List.pairwise_singleton _ _
      · unfold DistinctGrids
        simp
      · intro s hs
        rw [List.mem_singleton] at hs
        subst hs
        omega
      · intro s hs hlt
        rw [List.mem_singleton] at hs
        subst hs
        exact List.mem_singleton_self _
      · intro hle s hs
        rw [List.mem_singleton] at hs
        subst hs
        exact hp0valid
      · intro s hs hgo
        rw [List.mem_singleton] at hs
        subst hs
        exact ⟨hp0valid, hgoalL hgo⟩
      · refine ⟨mkInitial g0 w h, List.mem_singleton_self _,
          ⟨hp0valid, ?_⟩, lmin, ?_, ?_⟩
        · intro l hl
          rw [hp0depth]
          exact Nat.zero_le _
        · exact hlminr
        · rw [hp0depth, Nat.zero_add]
          exact hlminlen
    obtain ⟨r, pa, hrun, hpath, hreach, hplen⟩ :=
      bfs_loop_good w h (Nat.find hPex) g0 ord hw hh hg0 hord hLmin hL20
        (bfsMeasure w h [mkInitial g0 w h] [mkInitial g0 w h] + 1)
        [mkInitial g0 w h] [mkInitial g0 w h] 0 0 hinv (Nat.lt_succ_self _)
    refine ⟨bfsMeasure w h [mkInitial g0 w h] [mkInitial g0 w h] + 1,
      r, pa, ?_, hpath, hreach, ?_⟩
    · show solveBasicLoop ord false
        (bfsMeasure w h [mkInitial g0 w h] [mkInitial g0 w h] + 1)
        [mkInitial g0 w h] [mkInitial g0 w h] 0 0 = RunOut.done r
      exact hrun
    · intro l hl
      rw [hplen]
      exact hLmin l hl
  · intro fuel v md pc
    exact solveBasicLoop_succ_none ord false fuel [] v md pc rfl

/-- C1 witness: the amended theorem applied to a concrete 2×2 puzzle one
move from the goal. -/
theorem c1_witness :
    (∃ fuel r pa, solveBasic (mkInitial [1, 2, 0, 3] 2 2)
        [Direction.up, Direction.down, Direction.left, Direction.right]
        false fuel = RunOut.done r ∧ r.path = Option.some pa ∧
        reach 2 2 [1, 2, 0, 3] pa (goalGrid 2 2) ∧
        ∀ l, reach 2 2 [1, 2, 0, 3] l (goalGrid 2 2) →
          pa.length ≤ l.length) ∧
    (∀ (fuel : Nat) (v : List Puzzle) (md pc : Nat),
      solveBasicLoop
        [Direction.up, Direction.down, Direction.left, Direction.right]
        false (fuel + 1) [] v md pc =
        RunOut.done
          { path := Option.none, visitedStates := v.length,
            processedStates := pc, maxDepth := md }) :=
  c1_bfs_minimal 2 2 [1, 2, 0, 3]
    [Direction.up, Direction.down, Direction.left, Direction.right]
    [Direction.right] (by decide) (by decide) (by decide) (by decide)
    (by decide)
    (by intro d hd; cases d <;> first | exact absurd rfl hd | decide)
    (by unfold reach; decide) (by decide)

set_option maxRecDepth 10000

/-- C1 counterexample to the literal claim, in two parts. (i) On the 2×2
grid `[1,0,3,2]` the goal is one move away, yet BFS with the degenerate
move order U,U,U,U empties its queue and returns no-path — so "any move
order" fails. (ii) On the 2×3 grid `[4,5,0,1,2,3]` the goal is reachable
(in 21 moves, `cexSol`), but any history is capped at `MAX_DEPTH = 20`
slots: from the full-history state `c1full` (reached by the 20-move
`cexPath`) the 21st move produces a state whose grid is solved while its
recorded path is still `cexPath`, which does **not** transform the initial
grid into the goal — so a BFS run that pops this successor reports a
"path" that is not a minimum-length solution (no 20-move history can be,
`cexSol` being minimal beyond the cap). -/
theorem c1_counterexample :
    reach 2 2 [1, 0, 3, 2] [Direction.down] (goalGrid 2 2) ∧
    solveBasic (mkInitial [1, 0, 3, 2] 2 2)
      [Direction.up, Direction.up, Direction.up, Direction.up] false 10 =
      RunOut.done
        { path := Option.none, visitedStates := 1, processedStates := 1,
          maxDepth := 0 } ∧
    reach 3 2 [4, 5, 0, 1, 2, 3] cexSol (goalGrid 3 2) ∧
    cexSol.length = 21 ∧
    reach 3 2 [4, 5, 0, 1, 2, 3] cexPath c1full.grid ∧
    pathToVec c1full = cexPath ∧
    moveEmpty c1full Direction.right = PanicOr.ok (Option.some c1solvedq) ∧
    isSolved c1solvedq = true ∧
    pathToVec c1solvedq = cexPath ∧
    applyMoves 3 2 [4, 5, 0, 1, 2, 3] cexPath ≠
      Option.some (goalGrid 3 2) :=
  ⟨by unfold reach; decide, by decide, by unfold reach; decide, by decide,
   by unfold reach; decide, by decide, by decide, by decide, by decide,
   by decide⟩
end FifteenPuzzle
